import Mathlib

/-!
# Minesweeper board model (`src/main.cpp`)

A shallow embedding of the classes `Space` and `Board` of `src/main.cpp`.

* The grid `Space** board` is a map from a row index and a column index to a
  `Space`; `board[y][x]` is `b.board y x`.  Reading or writing the grid outside
  `[0,height) × [0,width)` is undefined in the source, so every statement about
  `attemptFlag` and `attemptReveal` is made at in-bounds coordinates.
* `int` coordinates are `Int` (the flood fill visits `x - 1`, which may be `-1`).
  `width` and `height` are allocation sizes and are kept as `Nat`.
* The random engine is replaced by the explicit list of coordinates it yields,
  one pair `(x, y)` per iteration of the placement loop.
* The recursion of `revealConnected` is driven by a depth budget; running out of
  budget is the result `none`, and `revealConnectedFuel_isSome` shows that the
  budget used by `revealConnected` is always enough.
* `revealConnectedLog` is `revealConnected` with a log of its calls of
  `countAdjacentMines`; `revealConnectedLog_fst` shows that it computes the same board.
-/

namespace Minesweeper

/-! ## Data model -/

/-- The enumeration `Space::State`. -/
inductive State where
  | Hidden
  | Revealed
  | Flagged
  deriving DecidableEq, Repr

/-- The enumeration `Board::MoveReturnState`. -/
inductive MoveReturnState where
  | BadMove
  | Hidden
  | Flagged
  | Empty
  | Mine
  deriving DecidableEq, Repr

/-- The class `Space`: fields `mine`, `text`, `state`. -/
structure Space where
  mine : Bool
  text : String
  state : State
  deriving DecidableEq, Repr

/-- The method `Space::reset`: `text = "-"; mine = false; state = Hidden`.
It overwrites all three fields, so its result does not depend on the old value.
The constructor `Space()` calls it as well. -/
def Space.reset (_s : Space) : Space :=
  { mine := false, text := "-", state := State.Hidden }

/-- The constructor `Space()`, which only calls `reset()`. -/
def Space.new : Space :=
  Space.reset { mine := false, text := "", state := State.Hidden }

/-- The private data of `Board`.  `board r c` is the source's `board[r][c]`. -/
structure Board where
  width : Nat
  height : Nat
  flags : Int
  mines : Int
  board : Int → Int → Space

/-- Overwrite the cell `board[r][c]` by `f board[r][c]`, all other cells kept. -/
def Board.modify (b : Board) (r c : Int) (f : Space → Space) : Board :=
  { b with board := fun r' c' => if r' = r ∧ c' = c then f (b.board r' c') else b.board r' c' }

/-! ## Operations -/

/-- The method `Board::isValidSpace`. -/
def isValidSpace (b : Board) (x y : Int) : Bool :=
  decide (x ≥ 0) && decide (x < (b.width : Int)) && decide (y ≥ 0) && decide (y < (b.height : Int))

/-- The method `Board::countAdjacentMines`: the two loops over `i, j ∈ {-1,0,1}`,
the centre `(0,0)` included. -/
def countAdjacentMines (b : Board) (x y : Int) : Int :=
  ([-1, 0, 1] : List Int).foldl
    (fun totalMines i =>
      ([-1, 0, 1] : List Int).foldl
        (fun totalMines j =>
          if isValidSpace b (x + i) (y + j) then
            if (b.board (y + j) (x + i)).mine then totalMines + 1 else totalMines
          else totalMines)
        totalMines)
    0

/-- The method `Board::attemptFlag`. -/
def attemptFlag (b : Board) (x y : Int) : Board × MoveReturnState :=
  if (b.board y x).state = State.Hidden ∧ b.flags > 0 then
    ({ b.modify y x (fun s => { s with state := State.Flagged, text := "F" }) with
        flags := b.flags - 1 },
      MoveReturnState.Flagged)
  else if (b.board y x).state = State.Flagged then
    ({ b.modify y x (fun s => { s with state := State.Hidden, text := "-" }) with
        flags := b.flags + 1 },
      MoveReturnState.Hidden)
  else (b, MoveReturnState.BadMove)

/-- The text `sprintf(buff, "%d", adjMines)` writes. -/
def sprintfD (adjMines : Int) : String := toString adjMines

/-- Run `f` at each coordinate pair of `ps` in turn, threading the board. -/
def revealSeq (f : Board → Int → Int → Option Board) (ps : List (Int × Int))
    (ob : Option Board) : Option Board :=
  ps.foldl (fun ob p => ob.bind fun b => f b p.1 p.2) ob

/-- The method `Board::revealConnected`, with a budget for the recursion depth:
`none` when the budget is used up. -/
def revealConnectedFuel : Nat → Board → Int → Int → Option Board
  | 0, _, _, _ => none
  | fuel + 1, b, x, y =>
    if isValidSpace b x y && !(b.board y x).mine
        && decide ((b.board y x).state ≠ State.Revealed) then
      let adjMines := countAdjacentMines b x y
      let b1 := b.modify y x (fun s => { s with state := State.Revealed })
      if adjMines > 0 then
        some (b1.modify y x (fun s => { s with text := sprintfD adjMines }))
      else
        let b2 := b1.modify y x (fun s => { s with text := "0" })
        ([-1, 0, 1] : List Int).foldl
          (fun ob i =>
            ([-1, 0, 1] : List Int).foldl
              (fun ob j => ob.bind fun b' => revealConnectedFuel fuel b' (x + i) (y + j))
              ob)
          (some b2)
    else some b

/-- The method `Board::revealConnected`.  The budget `width * height + 1` exceeds
the number of cells that can still be revealed, see `revealConnectedFuel_isSome`. -/
def revealConnected (b : Board) (x y : Int) : Board :=
  match revealConnectedFuel (b.width * b.height + 1) b x y with
  | some b' => b'
  | none => b

/-- The body of `case Space::State::Hidden:` in `Board::attemptReveal`. -/
def attemptRevealHidden (b : Board) (x y : Int) : Board × MoveReturnState :=
  if (b.board y x).mine then
    (b.modify y x (fun s => { s with state := State.Revealed }), MoveReturnState.Mine)
  else (revealConnected b x y, MoveReturnState.Empty)

/-- The method `Board::attemptReveal`.  The case `Flagged` runs `--flags` and
drops to the case `Hidden`; the default case returns `BadMove`. -/
def attemptReveal (b : Board) (x y : Int) : Board × MoveReturnState :=
  match (b.board y x).state with
  | State.Flagged => attemptRevealHidden { b with flags := b.flags - 1 } x y
  | State.Hidden => attemptRevealHidden b x y
  | State.Revealed => (b, MoveReturnState.BadMove)

/-- The first loop nest of `Board::resetBoard`: `board[i][j].reset()` for
`i < width`, `j < height`. -/
def resetCells (b : Board) : Board :=
  (List.range b.width).foldl
    (fun (b : Board) (i : Nat) =>
      (List.range b.height).foldl
        (fun (b : Board) (j : Nat) => b.modify (i : Int) (j : Int) Space.reset) b)
    b

/-- The placement loop of `Board::resetBoard`: `samples` are the pairs `(x, y)`
drawn from `dist`; `none` when the samples run out before `unusedMines` reaches 0. -/
def placeMines : Int → List (Int × Int) → Board → Option Board
  | unusedMines, [], b => if unusedMines > 0 then none else some b
  | unusedMines, (x, y) :: rest, b =>
    if unusedMines > 0 then
      if !(b.board y x).mine then
        placeMines (unusedMines - 1) rest (b.modify y x (fun s => { s with mine := true }))
      else placeMines unusedMines rest b
    else some b

/-- The method `Board::resetBoard`. -/
def resetBoard (b : Board) (samples : List (Int × Int)) : Option Board :=
  placeMines b.mines samples (resetCells b)

/-- The constructor `Board(int nwidth)` up to its last statement: `nwidth` rows of
`nwidth` default-constructed cells, `flags = width`, `mines = width`. -/
def Board.blank (nwidth : Nat) : Board :=
  { width := nwidth, height := nwidth, flags := nwidth, mines := nwidth,
    board := fun _ _ => Space.new }

/-- The constructor `Board(int nwidth)`, which ends by calling `resetBoard`. -/
def Board.new (nwidth : Nat) (samples : List (Int × Int)) : Option Board :=
  resetBoard (Board.blank nwidth) samples

/-- The method `Board::winCheck`. -/
def winCheck (b : Board) : Bool :=
  (List.range b.width).all fun (i : Nat) =>
    (List.range b.height).all fun (j : Nat) =>
      !(decide ((b.board (i : Int) (j : Int)).state ≠ State.Flagged)
        && decide ((b.board (i : Int) (j : Int)).state ≠ State.Revealed))

/-! ## Observations used to state the properties -/

/-- The number of cells `board[r][c]`, `r < height`, `c < width`, that satisfy `p`. -/
def countCells (p : Space → Bool) (b : Board) : Nat :=
  ((List.range b.height).map fun (r : Nat) =>
    ((List.range b.width).map fun (c : Nat) =>
      if p (b.board (r : Int) (c : Int)) then 1 else 0).sum).sum

/-- The number of mines on the grid. -/
def mineCount (b : Board) : Nat := countCells (fun s => s.mine) b

/-- The number of cells of the grid in state `Flagged`. -/
def flaggedCount (b : Board) : Nat := countCells (fun s => decide (s.state = State.Flagged)) b

/-- The number of cells `revealConnected` can still reveal: not a mine, not `Revealed`. -/
def todoCount (b : Board) : Nat :=
  countCells (fun s => !s.mine && decide (s.state ≠ State.Revealed)) b

/-- Every sample drawn from `dist(0, width - 1)` lies on the grid. -/
def validSamples (b : Board) (samples : List (Int × Int)) : Prop :=
  ∀ p ∈ samples, isValidSpace b p.1 p.2 = true

/-- The samples `(0,0), (1,1), …, (N-1,N-1)`: one possible outcome of the draws. -/
def diagonalSamples (N : Nat) : List (Int × Int) :=
  (List.range N).map fun (i : Nat) => ((i : Int), (i : Int))

/-- The nine coordinate pairs `(x + i, y + j)`, `i, j ∈ {-1,0,1}`, in the order in which
the loop nests of `countAdjacentMines` and `revealConnected` visit them. -/
def around (x y : Int) : List (Int × Int) :=
  [(x + -1, y + -1), (x + -1, y + 0), (x + -1, y + 1),
   (x + 0, y + -1), (x + 0, y + 0), (x + 0, y + 1),
   (x + 1, y + -1), (x + 1, y + 0), (x + 1, y + 1)]

/-- The pair `(u, v)` lies in the 3×3 block centred at `(x, y)`. -/
def near (x y u v : Int) : Prop := (u - x ≤ 1 ∧ x - u ≤ 1) ∧ (v - y ≤ 1 ∧ y - v ≤ 1)

/-- The pair `(u, v)` is one of the 8 neighbours of `(x, y)`. -/
def adjacent (x y u v : Int) : Prop := near x y u v ∧ ¬ (u = x ∧ v = y)

/-- The two assignments `board[y][x].state = Revealed; board[y][x].text = t` of
`revealConnected`. -/
def revealCell (b : Board) (x y : Int) (t : String) : Board :=
  (b.modify y x (fun s => { s with state := State.Revealed })).modify y x
    (fun s => { s with text := t })

/-- The text `revealConnected` writes into a cell whose count is `adjMines`. -/
def countText (adjMines : Int) : String := if adjMines > 0 then sprintfD adjMines else "0"

/-- One step of the cascade: from a grid cell `p` with count 0 to a cell of its 3×3 block. -/
def cascadeStep (b : Board) (p q : Int × Int) : Prop :=
  isValidSpace b p.1 p.2 = true ∧ countAdjacentMines b p.1 p.2 = 0 ∧ near p.1 p.2 q.1 q.2

/-- One step inside a region of count-0 cells: both ends are grid cells with count 0
and they are 8-neighbours. -/
def zeroStep (b : Board) (p q : Int × Int) : Prop :=
  adjacent p.1 p.2 q.1 q.2 ∧ isValidSpace b q.1 q.2 = true ∧ countAdjacentMines b q.1 q.2 = 0

/-- The 8-connected region of count-0 cells that contains the count-0 cell `(x, y)`. -/
def zeroRegion (b : Board) (x y u v : Int) : Prop :=
  Relation.ReflTransGen (zeroStep b) (x, y) (u, v)

/-- The closure property of cascades: a `Revealed` grid cell with count 0 has its whole
3×3 block on the grid `Revealed`. -/
def cascadeClosed (b : Board) : Prop :=
  ∀ x y : Int, isValidSpace b x y = true → (b.board y x).state = State.Revealed →
    countAdjacentMines b x y = 0 →
    ∀ u v : Int, near x y u v → isValidSpace b u v = true →
      (b.board v u).state = State.Revealed

/-- The boards a game on a board of size `N` can reach: the constructed board, and
from there any calls of `attemptFlag` and `attemptReveal` at grid coordinates and of
`resetBoard`, each with samples that lie on the grid and let its placement loop finish. -/
inductive Reachable (N : Nat) : Board → Prop where
  | construct (samples : List (Int × Int)) (b : Board) :
      validSamples (Board.blank N) samples → Board.new N samples = some b → Reachable N b
  | flag (b : Board) (x y : Int) :
      Reachable N b → isValidSpace b x y = true → Reachable N (attemptFlag b x y).1
  | reveal (b : Board) (x y : Int) :
      Reachable N b → isValidSpace b x y = true → Reachable N (attemptReveal b x y).1
  | reset (b : Board) (samples : List (Int × Int)) (b' : Board) :
      Reachable N b → validSamples b samples → resetBoard b samples = some b' →
      Reachable N b'

/-! ### Example boards -/

/-- A 2×2 board as constructed, with mines drawn at `(0,0)` (twice) and `(1,1)`. -/
def exNew2 : Board := (Board.new 2 [(0, 0), (0, 0), (1, 1)]).getD (Board.blank 2)

/-- The board `exNew2` after `attemptFlag(1, 0)`: one flag on a cell that is no mine. -/
def exFlagged2 : Board := (attemptFlag exNew2 1 0).1

/-- The board `exFlagged2` after `resetBoard` with mines drawn at `(1,0)` (twice), `(0,1)`. -/
def exReset2 : Board := (resetBoard exFlagged2 [(1, 0), (1, 0), (0, 1)]).getD exFlagged2

/-- The board `exFlagged2` after `attemptFlag(0, 1)`: both flags placed. -/
def exBothFlagged2 : Board := (attemptFlag exFlagged2 0 1).1

/-- The board `exBothFlagged2` after `attemptReveal(1, 0)`. -/
def exOverdrawn2 : Board := (attemptReveal exBothFlagged2 1 0).1

/-- The board `exFlagged2` after revealing `(0,0)`, `(1,1)` and `(0,1)`: three cells
`Revealed`, the cell `(1,0)` `Flagged` and no mine. -/
def exWon2 : Board :=
  (attemptReveal (attemptReveal (attemptReveal exFlagged2 0 0).1 1 1).1 0 1).1

/-- A 4×4 board as constructed, with the mines in the 2×2 block at the origin. -/
def exNew4 : Board :=
  (Board.new 4 [(0, 0), (1, 0), (0, 1), (1, 1)]).getD (Board.blank 4)

/-- The board `exNew4` after `attemptReveal(3, 0)`. -/
def exRevealed4 : Board := (attemptReveal exNew4 3 0).1

/-- Facts that hold of every reachable board of size `N`. -/
structure GameInv (N : Nat) (b : Board) : Prop where
  width_eq : b.width = N
  height_eq : b.height = N
  mines_eq : b.mines = N
  budget : b.flags + flaggedCount b ≤ N
  closed : cascadeClosed b
  hidden_text : ∀ r c : Int, (b.board r c).state = State.Hidden → (b.board r c).text = "-"

/-- What a cascade started at the cells `starts` does to a board: only the cells are
touched; a touched cell was an unrevealed non-mine grid cell reached from a start
through count-0 cells and now is `Revealed` with its count as text; every start that
can be revealed is; and every newly revealed count-0 cell has its 3×3 block revealed. -/
structure Cascade (b : Board) (starts : List (Int × Int)) (b' : Board) : Prop where
  width_eq : b'.width = b.width
  height_eq : b'.height = b.height
  flags_eq : b'.flags = b.flags
  mines_eq : b'.mines = b.mines
  cell : ∀ r c : Int, b'.board r c = b.board r c ∨
    (isValidSpace b c r = true ∧ (b.board r c).mine = false
      ∧ (b.board r c).state ≠ State.Revealed
      ∧ b'.board r c
          = { mine := false, text := countText (countAdjacentMines b c r),
              state := State.Revealed }
      ∧ ∃ s ∈ starts, Relation.ReflTransGen (cascadeStep b) s (c, r))
  target : ∀ s ∈ starts, isValidSpace b s.1 s.2 = true → (b.board s.2 s.1).mine = false →
    (b'.board s.2 s.1).state = State.Revealed
  closure : ∀ x y : Int, isValidSpace b x y = true → (b'.board y x).state = State.Revealed →
    (b.board y x).state ≠ State.Revealed → countAdjacentMines b x y = 0 →
    ∀ u v : Int, near x y u v → isValidSpace b u v = true →
      (b'.board v u).state = State.Revealed

/-- The eight coordinate pairs around `(x, y)`: the block `around x y` without its centre. -/
def around8 (x y : Int) : List (Int × Int) :=
  [(x + -1, y + -1), (x + -1, y + 0), (x + -1, y + 1),
   (x + 0, y + -1), (x + 0, y + 1),
   (x + 1, y + -1), (x + 1, y + 0), (x + 1, y + 1)]

/-- The number of mines among the grid cells at the 8 surrounding offsets of `(x, y)`,
the centre excluded. -/
def adjacentMines8 (b : Board) (x y : Int) : Nat :=
  (around8 x y).countP fun p => isValidSpace b p.1 p.2 && (b.board p.2 p.1).mine

/-- The one-character text of the decimal digit `k`. -/
def digitText (k : Int) : String := String.singleton (Nat.digitChar k.toNat)

/-- A 3×3 board with the mine count overridden to 2 and the mines drawn at `(0,0)` and
`(2,2)`. -/
def exTwoMines3 : Board :=
  (resetBoard { Board.blank 3 with mines := 2 } [(0, 0), (2, 2)]).getD (Board.blank 3)

/-- A 9×9 board as constructed, with the mines drawn in the 3×3 block at the origin. -/
def exBlock9 : Board :=
  (Board.new 9 [(0, 0), (1, 0), (2, 0), (0, 1), (1, 1), (2, 1), (0, 2), (1, 2), (2, 2)]).getD
    (Board.blank 9)

/-- Run the logging function `f` at each coordinate pair of `ps` in turn, threading the
board and appending the logs. -/
def logSeq {E : Type} (f : Board → Int → Int → Option (Board × List E))
    (ps : List (Int × Int)) (acc : Option (Board × List E)) : Option (Board × List E) :=
  ps.foldl (fun acc p => acc.bind fun s => (f s.1 p.1 p.2).map fun t => (t.1, s.2 ++ t.2)) acc

/-- The method `Board::revealConnected` with a log of its calls of `countAdjacentMines`:
each call at `(x, y)` is recorded with the mine bit `board[y][x].mine` at that moment. -/
def revealConnectedLog : Nat → Board → Int → Int → Option (Board × List (Int × Int × Bool))
  | 0, _, _, _ => none
  | fuel + 1, b, x, y =>
    if isValidSpace b x y && !(b.board y x).mine
        && decide ((b.board y x).state ≠ State.Revealed) then
      let adjMines := countAdjacentMines b x y
      let call : Int × Int × Bool := (x, y, (b.board y x).mine)
      let b1 := b.modify y x (fun s => { s with state := State.Revealed })
      if adjMines > 0 then
        some (b1.modify y x (fun s => { s with text := sprintfD adjMines }), [call])
      else
        let b2 := b1.modify y x (fun s => { s with text := "0" })
        ([-1, 0, 1] : List Int).foldl
          (fun acc i =>
            ([-1, 0, 1] : List Int).foldl
              (fun acc j =>
                acc.bind fun s =>
                  (revealConnectedLog fuel s.1 (x + i) (y + j)).map fun t => (t.1, s.2 ++ t.2))
              acc)
          (some (b2, [call]))
    else some (b, [])

/-- The number of pairs `(r, c)`, `r < h`, `c < w`, that satisfy `q`. -/
def countGrid (w h : Nat) (q : Int → Int → Bool) : Nat :=
  ((List.range h).map fun (r : Nat) =>
    ((List.range w).map fun (c : Nat) => if q (r : Int) (c : Int) then 1 else 0).sum).sum

/-- The number of cells of the grid in state `Revealed`. -/
def revealedCount (b : Board) : Nat :=
  countCells (fun s => decide (s.state = State.Revealed)) b

/-- The number of grid cells that are `Flagged` on `b` and `Revealed` on `b'`. -/
def passedOver (b b' : Board) : Nat :=
  countGrid b.width b.height fun r c =>
    decide ((b.board r c).state = State.Flagged)
      && decide ((b'.board r c).state = State.Revealed)

/-- The board `exNew4` after `attemptFlag(3, 3)` and `attemptFlag(2, 2)`. -/
def exFlagged4 : Board := (attemptFlag (attemptFlag exNew4 3 3).1 2 2).1

/-- The texts of the cells of a reachable board: a `Flagged` cell shows `"F"`, and a
`Revealed` grid cell that is no mine shows its count. -/
structure LabelInv (b : Board) : Prop where
  flagged_text : ∀ r c : Int, (b.board r c).state = State.Flagged → (b.board r c).text = "F"
  revealed_text : ∀ r c : Int, isValidSpace b c r = true →
    (b.board r c).state = State.Revealed → (b.board r c).mine = false →
    (b.board r c).text = countText (countAdjacentMines b c r)

/-- The boards of one round of the game on a board of size `N`: the round starts from the
constructed board or from a board `resetBoard` returns in a game, and goes on by calls of
`attemptFlag` and `attemptReveal` at grid coordinates, as long as none returns `Mine`. -/
inductive InRound (N : Nat) : Board → Prop where
  | construct (samples : List (Int × Int)) (b : Board) :
      validSamples (Board.blank N) samples → Board.new N samples = some b → InRound N b
  | reset (b : Board) (samples : List (Int × Int)) (b' : Board) :
      Reachable N b → validSamples b samples → resetBoard b samples = some b' →
      InRound N b'
  | flag (b : Board) (x y : Int) :
      InRound N b → isValidSpace b x y = true → InRound N (attemptFlag b x y).1
  | reveal (b : Board) (x y : Int) :
      InRound N b → isValidSpace b x y = true →
      (attemptReveal b x y).2 ≠ MoveReturnState.Mine → InRound N (attemptReveal b x y).1

/-- Facts that hold of every board of a round on a board of size `N`. -/
structure RoundInv (N : Nat) (b : Board) : Prop where
  mine_count : mineCount b = N
  mines_unrevealed : ∀ x y : Int, isValidSpace b x y = true → (b.board y x).mine = true →
    (b.board y x).state ≠ State.Revealed
  flagged_le : flaggedCount b ≤ N

/-- The board `exNew2` after `attemptReveal(0, 0)`, `attemptFlag(1, 1)` and
`attemptReveal(1, 1)`: both mines `Revealed`, one from `Hidden` and one from `Flagged`. -/
def exMinesShown2 : Board :=
  (attemptReveal (attemptFlag (attemptReveal exNew2 0 0).1 1 1).1 1 1).1

/-- The board `exNew2` after flagging both mines `(0,0)`, `(1,1)` and revealing `(1,0)`
and `(0,1)`. -/
def exCleared2 : Board :=
  (attemptReveal (attemptReveal (attemptFlag (attemptFlag exNew2 0 0).1 1 1).1 1 0).1 0 1).1

/-! ## Basic facts -/

@[simp] theorem modify_width (b : Board) (r c : Int) (f : Space → Space) :
    (b.modify r c f).width = b.width := rfl

@[simp] theorem modify_height (b : Board) (r c : Int) (f : Space → Space) :
    (b.modify r c f).height = b.height := rfl

@[simp] theorem modify_flags (b : Board) (r c : Int) (f : Space → Space) :
    (b.modify r c f).flags = b.flags := rfl

@[simp] theorem modify_mines (b : Board) (r c : Int) (f : Space → Space) :
    (b.modify r c f).mines = b.mines := rfl

theorem modify_board (b : Board) (r c : Int) (f : Space → Space) (r' c' : Int) :
    (b.modify r c f).board r' c'
      = if r' = r ∧ c' = c then f (b.board r' c') else b.board r' c' := rfl

theorem isValidSpace_iff (b : Board) (x y : Int) :
    isValidSpace b x y = true ↔ 0 ≤ x ∧ x < b.width ∧ 0 ≤ y ∧ y < b.height := by
  simp [isValidSpace, and_assoc]

/-- Validity of a coordinate pair depends on the dimensions only. -/
theorem isValidSpace_congr {b b' : Board} (hw : b'.width = b.width)
    (hh : b'.height = b.height) (x y : Int) : isValidSpace b' x y = isValidSpace b x y := by
  simp [isValidSpace, hw, hh]

theorem list_sum_map_range (f : Nat → Nat) (n : Nat) :
    ((List.range n).map f).sum = ∑ i in Finset.range n, f i := by
  induction n with
  | zero => simp
  | succ n ih => simp [List.range_succ, Finset.sum_range_succ, ih]

theorem countCells_eq_sum (p : Space → Bool) (b : Board) :
    countCells p b
      = ∑ e in Finset.range b.height ×ˢ Finset.range b.width,
          if p (b.board e.1 e.2) then 1 else 0 := by
  unfold countCells
  rw [list_sum_map_range, Finset.sum_product]
  apply Finset.sum_congr rfl
  intro r _
  rw [list_sum_map_range]

/-- Two boards of the same dimensions whose cells agree on `p` pointwise up to `≤`. -/
theorem countCells_mono (p : Space → Bool) (b b' : Board) (hw : b'.width = b.width)
    (hh : b'.height = b.height)
    (h : ∀ r c : Int, isValidSpace b c r = true → p (b'.board r c) = true →
      p (b.board r c) = true) :
    countCells p b' ≤ countCells p b := by
  rw [countCells_eq_sum, countCells_eq_sum, hw, hh]
  apply Finset.sum_le_sum
  intro e he
  simp only [Finset.mem_product, Finset.mem_range] at he
  have hv : isValidSpace b (e.2 : Int) (e.1 : Int) = true := by
    rw [isValidSpace_iff]; omega
  by_cases hp : p (b'.board e.1 e.2) = true
  · simp [hp, h _ _ hv hp]
  · simp [hp]

/-- Overwriting one cell of the grid moves the count by that cell's contribution. -/
theorem countCells_modify (p : Space → Bool) (b : Board) (x y : Int) (f : Space → Space)
    (hv : isValidSpace b x y = true) :
    countCells p (b.modify y x f) + (if p (b.board y x) then 1 else 0)
      = countCells p b + (if p (f (b.board y x)) then 1 else 0) := by
  rw [isValidSpace_iff] at hv
  rw [countCells_eq_sum, countCells_eq_sum]
  simp only [modify_width, modify_height]
  have hmem : (y.toNat, x.toNat) ∈ Finset.range b.height ×ˢ Finset.range b.width := by
    simp only [Finset.mem_product, Finset.mem_range]; omega
  have hy : ((y.toNat : Nat) : Int) = y := Int.toNat_of_nonneg hv.2.2.1
  have hx : ((x.toNat : Nat) : Int) = x := Int.toNat_of_nonneg hv.1
  rw [← Finset.add_sum_erase _ _ hmem, ← Finset.add_sum_erase _ _ hmem]
  have hrest : ∑ e in (Finset.range b.height ×ˢ Finset.range b.width).erase (y.toNat, x.toNat),
        (if p ((b.modify y x f).board e.1 e.2) then 1 else 0)
      = ∑ e in (Finset.range b.height ×ˢ Finset.range b.width).erase (y.toNat, x.toNat),
        (if p (b.board e.1 e.2) then 1 else 0) := by
    apply Finset.sum_congr rfl
    intro e he
    have hne : e ≠ (y.toNat, x.toNat) := (Finset.mem_erase.mp he).1
    have : ¬ (((e.1 : Nat) : Int) = y ∧ ((e.2 : Nat) : Int) = x) := by
      rintro ⟨h1, h2⟩
      apply hne
      ext <;> simp <;> omega
    rw [modify_board, if_neg this]
  rw [hrest]
  simp only [modify_board, hy, hx, and_self, if_true]
  omega

/-! ## `countAdjacentMines` -/

theorem mem_around (x y : Int) (q : Int × Int) : q ∈ around x y ↔ near x y q.1 q.2 := by
  obtain ⟨u, v⟩ := q
  simp only [around, near, List.mem_cons, Prod.mk.injEq, List.mem_singleton, List.not_mem_nil,
    or_false]
  constructor
  · intro h
    omega
  · intro h
    omega

theorem foldl_count {α : Type} (c : α → Bool) (l : List α) (t : Int) :
    l.foldl (fun t j => if c j = true then t + 1 else t) t = t + (l.countP c : Nat) := by
  induction l generalizing t with
  | nil => simp
  | cons a l ih =>
    rw [List.foldl_cons, ih, List.countP_cons]
    by_cases h : c a = true
    · simp [h]; omega
    · simp [h]

/-- The count as a number of pairs of the 3×3 block that are grid cells holding a mine. -/
theorem countAdjacentMines_eq (b : Board) (x y : Int) :
    countAdjacentMines b x y
      = ((around x y).countP fun p => isValidSpace b p.1 p.2 && (b.board p.2 p.1).mine : Nat) := by
  have step : ∀ (i : Int) (t : Int),
      ([-1, 0, 1] : List Int).foldl
        (fun totalMines j =>
          if isValidSpace b (x + i) (y + j) then
            if (b.board (y + j) (x + i)).mine then totalMines + 1 else totalMines
          else totalMines) t
        = t + (([-1, 0, 1] : List Int).countP
            fun j => isValidSpace b (x + i) (y + j) && (b.board (y + j) (x + i)).mine : Nat) := by
    intro i t
    rw [← foldl_count]
    congr 1
    funext t j
    by_cases h1 : isValidSpace b (x + i) (y + j) = true <;>
      by_cases h2 : (b.board (y + j) (x + i)).mine = true <;> simp [h1, h2]
  unfold countAdjacentMines
  simp only [List.foldl_cons, List.foldl_nil, step]
  simp only [around, List.countP_cons, List.countP_nil]
  push_cast
  ring

theorem countAdjacentMines_nonneg (b : Board) (x y : Int) : 0 ≤ countAdjacentMines b x y := by
  rw [countAdjacentMines_eq]
  exact Int.natCast_nonneg _

/-- A zero count means that no grid cell of the 3×3 block is a mine. -/
theorem countAdjacentMines_eq_zero (b : Board) (x y : Int) :
    countAdjacentMines b x y = 0
      ↔ ∀ u v : Int, near x y u v → isValidSpace b u v = true → (b.board v u).mine = false := by
  rw [countAdjacentMines_eq]
  rw [Int.natCast_eq_zero, List.countP_eq_zero]
  constructor
  · intro h u v hn hv
    have := h (u, v) ((mem_around x y (u, v)).mpr hn)
    simpa [hv] using this
  · intro h p hp
    have := h p.1 p.2 ((mem_around x y p).mp hp)
    by_cases hv : isValidSpace b p.1 p.2 = true
    · simp [hv, this hv]
    · simp [hv]

/-- The count reads the dimensions and the mine bits only. -/
theorem countAdjacentMines_congr {b b' : Board} (hw : b'.width = b.width)
    (hh : b'.height = b.height)
    (hm : ∀ r c : Int, (b'.board r c).mine = (b.board r c).mine) (x y : Int) :
    countAdjacentMines b' x y = countAdjacentMines b x y := by
  rw [countAdjacentMines_eq, countAdjacentMines_eq]
  congr 2
  funext p
  rw [isValidSpace_congr hw hh, hm]

theorem near_self (x y : Int) : near x y x y := by
  unfold near; omega

theorem near_symm {x y u v : Int} (h : near x y u v) : near u v x y := by
  unfold near at *; omega

/-! ## `resetBoard` -/

@[simp] theorem reset_reset (s s' : Space) : Space.reset s = Space.reset s' := rfl

/-- One run of the inner loop of `resetBoard`, over the columns `j < n` of row `i`. -/
theorem resetRow_spec (i : Int) (n : Nat) (b : Board) :
    ((List.range n).foldl
        (fun (b : Board) (j : Nat) => b.modify i (j : Int) Space.reset) b).width = b.width
    ∧ ((List.range n).foldl
        (fun (b : Board) (j : Nat) => b.modify i (j : Int) Space.reset) b).height = b.height
    ∧ ((List.range n).foldl
        (fun (b : Board) (j : Nat) => b.modify i (j : Int) Space.reset) b).flags = b.flags
    ∧ ((List.range n).foldl
        (fun (b : Board) (j : Nat) => b.modify i (j : Int) Space.reset) b).mines = b.mines
    ∧ ∀ r c : Int,
        ((List.range n).foldl
          (fun (b : Board) (j : Nat) => b.modify i (j : Int) Space.reset) b).board r c
          = if r = i ∧ 0 ≤ c ∧ c < n then Space.reset (b.board r c) else b.board r c := by
  induction n with
  | zero =>
    refine ⟨rfl, rfl, rfl, rfl, ?_⟩
    intro r c
    have h0 : ¬ (r = i ∧ 0 ≤ c ∧ c < ((0 : Nat) : Int)) := by omega
    rw [if_neg h0]
    rfl
  | succ n ih =>
    obtain ⟨hw, hh, hf, hm, hb⟩ := ih
    simp only [List.range_succ, List.foldl_append, List.foldl_cons, List.foldl_nil,
      modify_width, modify_height, modify_flags, modify_mines]
    refine ⟨hw, hh, hf, hm, ?_⟩
    intro r c
    rw [modify_board, hb]
    by_cases h1 : r = i ∧ c = (n : Int)
    · have h2 : r = i ∧ 0 ≤ c ∧ c < ((n + 1 : Nat) : Int) := by omega
      rw [if_pos h1, if_pos h2]
      exact reset_reset _ _
    · rw [if_neg h1]
      by_cases h3 : r = i ∧ 0 ≤ c ∧ c < (n : Int)
      · have h2 : r = i ∧ 0 ≤ c ∧ c < ((n + 1 : Nat) : Int) := by omega
        rw [if_pos h3, if_pos h2]
      · have h2 : ¬ (r = i ∧ 0 ≤ c ∧ c < ((n + 1 : Nat) : Int)) := by omega
        rw [if_neg h3, if_neg h2]

/-- The first `n` rows of the clearing loop nest of `resetBoard`. -/
theorem resetRows_spec (n : Nat) (b : Board) :
    ((List.range n).foldl
        (fun (b : Board) (i : Nat) =>
          (List.range b.height).foldl
            (fun (b : Board) (j : Nat) => b.modify (i : Int) (j : Int) Space.reset) b)
        b).width = b.width
    ∧ ((List.range n).foldl
        (fun (b : Board) (i : Nat) =>
          (List.range b.height).foldl
            (fun (b : Board) (j : Nat) => b.modify (i : Int) (j : Int) Space.reset) b)
        b).height = b.height
    ∧ ((List.range n).foldl
        (fun (b : Board) (i : Nat) =>
          (List.range b.height).foldl
            (fun (b : Board) (j : Nat) => b.modify (i : Int) (j : Int) Space.reset) b)
        b).flags = b.flags
    ∧ ((List.range n).foldl
        (fun (b : Board) (i : Nat) =>
          (List.range b.height).foldl
            (fun (b : Board) (j : Nat) => b.modify (i : Int) (j : Int) Space.reset) b)
        b).mines = b.mines
    ∧ ∀ r c : Int,
        ((List.range n).foldl
          (fun (b : Board) (i : Nat) =>
            (List.range b.height).foldl
              (fun (b : Board) (j : Nat) => b.modify (i : Int) (j : Int) Space.reset) b)
          b).board r c
          = if (0 ≤ r ∧ r < n) ∧ 0 ≤ c ∧ c < b.height then Space.reset (b.board r c)
            else b.board r c := by
  induction n with
  | zero =>
    refine ⟨rfl, rfl, rfl, rfl, ?_⟩
    intro r c
    have h0 : ¬ ((0 ≤ r ∧ r < ((0 : Nat) : Int)) ∧ 0 ≤ c ∧ c < (b.height : Int)) := by omega
    rw [if_neg h0]
    rfl
  | succ n ih =>
    obtain ⟨hw, hh, hf, hm, hb⟩ := ih
    simp only [List.range_succ, List.foldl_append, List.foldl_cons, List.foldl_nil]
    obtain ⟨rw1, rh1, rf1, rm1, rb1⟩ := resetRow_spec (n : Int)
      ((List.range n).foldl
        (fun (b : Board) (i : Nat) =>
          (List.range b.height).foldl
            (fun (b : Board) (j : Nat) => b.modify (i : Int) (j : Int) Space.reset) b)
        b).height
      ((List.range n).foldl
        (fun (b : Board) (i : Nat) =>
          (List.range b.height).foldl
            (fun (b : Board) (j : Nat) => b.modify (i : Int) (j : Int) Space.reset) b)
        b)
    refine ⟨rw1.trans hw, rh1.trans hh, rf1.trans hf, rm1.trans hm, ?_⟩
    intro r c
    rw [rb1, hb, hh]
    by_cases h1 : r = (n : Int) ∧ 0 ≤ c ∧ c < (b.height : Int)
    · have h2 : (0 ≤ r ∧ r < ((n + 1 : Nat) : Int)) ∧ 0 ≤ c ∧ c < (b.height : Int) := by omega
      rw [if_pos h1, if_pos h2]
      exact reset_reset _ _
    · rw [if_neg h1]
      by_cases h3 : (0 ≤ r ∧ r < (n : Int)) ∧ 0 ≤ c ∧ c < (b.height : Int)
      · have h2 : (0 ≤ r ∧ r < ((n + 1 : Nat) : Int)) ∧ 0 ≤ c ∧ c < (b.height : Int) := by
          omega
        rw [if_pos h3, if_pos h2]
      · have h2 : ¬ ((0 ≤ r ∧ r < ((n + 1 : Nat) : Int)) ∧ 0 ≤ c ∧ c < (b.height : Int)) := by
          omega
        rw [if_neg h3, if_neg h2]

theorem resetCells_width (b : Board) : (resetCells b).width = b.width :=
  (resetRows_spec b.width b).1

theorem resetCells_height (b : Board) : (resetCells b).height = b.height :=
  (resetRows_spec b.width b).2.1

theorem resetCells_flags (b : Board) : (resetCells b).flags = b.flags :=
  (resetRows_spec b.width b).2.2.1

theorem resetCells_mines (b : Board) : (resetCells b).mines = b.mines :=
  (resetRows_spec b.width b).2.2.2.1

/-- The clearing loops reset `board[r][c]` for `r < width`, `c < height` and
touch nothing else. -/
theorem resetCells_board (b : Board) (r c : Int) :
    (resetCells b).board r c
      = if (0 ≤ r ∧ r < b.width) ∧ 0 ≤ c ∧ c < b.height then Space.reset (b.board r c)
        else b.board r c :=
  (resetRows_spec b.width b).2.2.2.2 r c

theorem validSamples_congr {b b' : Board} (hw : b'.width = b.width)
    (hh : b'.height = b.height) (samples : List (Int × Int)) (h : validSamples b samples) :
    validSamples b' samples := by
  intro p hp
  rw [isValidSpace_congr hw hh]
  exact h p hp

/-- Marking an unmined cell of the grid as a mine adds one to the mine count. -/
theorem mineCount_place (b : Board) (x y : Int) (hv : isValidSpace b x y = true)
    (hm : (b.board y x).mine = false) :
    mineCount (b.modify y x (fun s => { s with mine := true })) = mineCount b + 1 := by
  have h := countCells_modify (fun s => s.mine) b x y (fun s => { s with mine := true }) hv
  simp only [hm] at h
  simpa [mineCount] using h

/-- The placement loop: when it finishes it has marked exactly `unusedMines` new
mines and changed nothing else. -/
theorem placeMines_spec (samples : List (Int × Int)) :
    ∀ (k : Int) (b b' : Board), validSamples b samples → placeMines k samples b = some b' →
      b'.width = b.width ∧ b'.height = b.height ∧ b'.flags = b.flags ∧ b'.mines = b.mines
      ∧ (∀ r c : Int, (b'.board r c).state = (b.board r c).state
          ∧ (b'.board r c).text = (b.board r c).text)
      ∧ (0 ≤ k → (mineCount b' : Int) = mineCount b + k) := by
  induction samples with
  | nil =>
    intro k b b' _ h
    unfold placeMines at h
    split at h
    · exact absurd h (by simp)
    · rename_i hk
      cases Option.some.inj h
      exact ⟨rfl, rfl, rfl, rfl, fun _ _ => ⟨rfl, rfl⟩, fun h0 => by omega⟩
  | cons p rest ih =>
    intro k b b' hs h
    obtain ⟨x, y⟩ := p
    unfold placeMines at h
    have hv : isValidSpace b x y = true := hs (x, y) (List.mem_cons_self _ _)
    have hrest : validSamples b rest := fun q hq => hs q (List.mem_cons_of_mem _ hq)
    split at h
    · rename_i hk
      split at h
      · rename_i hmine
        have hm : (b.board y x).mine = false := by simpa using hmine
        have hs' : validSamples (b.modify y x (fun s => { s with mine := true })) rest :=
          validSamples_congr rfl rfl rest hrest
        obtain ⟨hw, hh, hf, hmn, hcell, hcount⟩ := ih _ _ _ hs' h
        refine ⟨hw, hh, hf, hmn, ?_, ?_⟩
        · intro r c
          have h1 := hcell r c
          rw [modify_board] at h1
          by_cases hrc : r = y ∧ c = x
          · simpa [if_pos hrc] using h1
          · simpa [if_neg hrc] using h1
        · intro _
          have h2 := hcount (by omega)
          rw [mineCount_place b x y hv hm] at h2
          push_cast at h2
          omega
      · obtain ⟨hw, hh, hf, hmn, hcell, hcount⟩ := ih _ _ _ hrest h
        exact ⟨hw, hh, hf, hmn, hcell, hcount⟩
    · rename_i hk
      cases Option.some.inj h
      exact ⟨rfl, rfl, rfl, rfl, fun _ _ => ⟨rfl, rfl⟩, fun h0 => by omega⟩

/-- After the clearing loops of a square board no cell of the grid is a mine. -/
theorem mineCount_resetCells (b : Board) (hsq : b.width = b.height) :
    mineCount (resetCells b) = 0 := by
  unfold mineCount
  rw [countCells_eq_sum]
  apply Finset.sum_eq_zero
  intro e he
  simp only [Finset.mem_product, Finset.mem_range, resetCells_width, resetCells_height] at he
  have hin : (0 ≤ (e.1 : Int) ∧ (e.1 : Int) < b.width) ∧ 0 ≤ (e.2 : Int)
      ∧ (e.2 : Int) < b.height := by omega
  rw [resetCells_board, if_pos hin]
  simp [Space.reset]

/-- What `resetBoard` leaves behind on a square board whenever its placement loop finishes. -/
theorem resetBoard_spec (b b' : Board) (samples : List (Int × Int))
    (hsq : b.width = b.height) (hs : validSamples b samples)
    (h : resetBoard b samples = some b') :
    b'.width = b.width ∧ b'.height = b.height ∧ b'.flags = b.flags ∧ b'.mines = b.mines
    ∧ (∀ x y : Int, isValidSpace b x y = true →
        (b'.board y x).state = State.Hidden ∧ (b'.board y x).text = "-")
    ∧ (∀ r c : Int, isValidSpace b c r = false →
        (b'.board r c).state = (b.board r c).state ∧ (b'.board r c).text = (b.board r c).text)
    ∧ (0 ≤ b.mines → (mineCount b' : Int) = b.mines) := by
  unfold resetBoard at h
  have hs' : validSamples (resetCells b) samples :=
    validSamples_congr (resetCells_width b) (resetCells_height b) samples hs
  obtain ⟨hw, hh, hf, hm, hcell, hcount⟩ := placeMines_spec samples _ _ _ hs' h
  refine ⟨hw.trans (resetCells_width b), hh.trans (resetCells_height b),
    hf.trans (resetCells_flags b), hm.trans (resetCells_mines b), ?_, ?_, ?_⟩
  · intro x y hv
    rw [isValidSpace_iff] at hv
    have hin : (0 ≤ y ∧ y < b.width) ∧ 0 ≤ x ∧ x < b.height := by omega
    have h1 := hcell y x
    rw [resetCells_board, if_pos hin] at h1
    exact h1
  · intro r c hv
    have hnot : ¬ ((0 ≤ r ∧ r < b.width) ∧ 0 ≤ c ∧ c < b.height) := by
      intro hin
      have : isValidSpace b c r = true := by rw [isValidSpace_iff]; omega
      rw [this] at hv
      exact absurd hv (by simp)
    have h1 := hcell r c
    rw [resetCells_board, if_neg hnot] at h1
    exact h1
  · intro h0
    have h1 := hcount h0
    rw [mineCount_resetCells b hsq] at h1
    simpa using h1

/-- The placement loop finishes on any list of distinct unmined cells that is as long as
the number of mines to place. -/
theorem placeMines_nodup (l : List (Int × Int)) :
    ∀ b : Board, l.Nodup → (∀ p ∈ l, (b.board p.2 p.1).mine = false) →
      ∃ b', placeMines (l.length : Int) l b = some b' := by
  induction l with
  | nil =>
    intro b _ _
    exact ⟨b, by simp [placeMines]⟩
  | cons p rest ih =>
    intro b hnd hfree
    obtain ⟨x, y⟩ := p
    have hp : (b.board y x).mine = false := hfree (x, y) (List.mem_cons_self _ _)
    have hnot : (x, y) ∉ rest := (List.nodup_cons.mp hnd).1
    have hrest : ∀ q ∈ rest,
        ((b.modify y x (fun s => { s with mine := true })).board q.2 q.1).mine = false := by
      intro q hq
      have hne : ¬ (q.2 = y ∧ q.1 = x) := by
        rintro ⟨h1, h2⟩
        apply hnot
        have : q = (x, y) := Prod.ext h2 h1
        rw [← this]; exact hq
      rw [modify_board, if_neg hne]
      exact hfree q (List.mem_cons_of_mem _ hq)
    obtain ⟨b', hb'⟩ := ih _ (List.nodup_cons.mp hnd).2 hrest
    refine ⟨b', ?_⟩
    unfold placeMines
    have hpos : ((((x, y) :: rest).length : Nat) : Int) > 0 := by
      simp only [List.length_cons]; omega
    rw [if_pos hpos]
    simp only [hp, Bool.not_false, if_true]
    have hlen : ((((x, y) :: rest).length : Nat) : Int) - 1 = (rest.length : Int) := by
      simp only [List.length_cons]; omega
    rw [hlen]
    exact hb'

/-- On a board of size `N` there are samples on which `resetBoard` finishes. -/
theorem resetBoard_finishes (N : Nat) (b : Board) (hw : b.width = N) (hh : b.height = N)
    (hm : b.mines = N) :
    validSamples b (diagonalSamples N)
      ∧ ∃ b', resetBoard b (diagonalSamples N) = some b' := by
  constructor
  · intro p hp
    simp only [diagonalSamples, List.mem_map, List.mem_range] at hp
    obtain ⟨i, hi, rfl⟩ := hp
    rw [isValidSpace_iff]
    omega
  · unfold resetBoard
    have hlen : ((diagonalSamples N).length : Int) = b.mines := by
      simp [diagonalSamples, hm]
    rw [← hlen]
    apply placeMines_nodup
    · unfold diagonalSamples
      apply List.Nodup.map _ (List.nodup_range N)
      intro i j hij
      simp only [Prod.mk.injEq, Nat.cast_inj, and_self] at hij
      exact hij
    · intro p hp
      simp only [diagonalSamples, List.mem_map, List.mem_range] at hp
      obtain ⟨i, hi, rfl⟩ := hp
      have hin : (0 ≤ (i : Int) ∧ (i : Int) < b.width) ∧ 0 ≤ (i : Int)
          ∧ (i : Int) < b.height := by omega
      rw [resetCells_board, if_pos hin]
      rfl

/-! ## `revealConnected` -/

theorem Cascade.mine_eq {b b' : Board} {ps : List (Int × Int)} (h : Cascade b ps b')
    (r c : Int) : (b'.board r c).mine = (b.board r c).mine := by
  rcases h.cell r c with h1 | ⟨_, hm, _, h1, _⟩
  · rw [h1]
  · rw [h1, hm]

theorem Cascade.valid_eq {b b' : Board} {ps : List (Int × Int)} (h : Cascade b ps b')
    (x y : Int) : isValidSpace b' x y = isValidSpace b x y :=
  isValidSpace_congr h.width_eq h.height_eq x y

theorem Cascade.count_eq {b b' : Board} {ps : List (Int × Int)} (h : Cascade b ps b')
    (x y : Int) : countAdjacentMines b' x y = countAdjacentMines b x y :=
  countAdjacentMines_congr h.width_eq h.height_eq h.mine_eq x y

/-- A cell that is already `Revealed` (or a mine, or off the grid) is left alone. -/
theorem Cascade.keep {b b' : Board} {ps : List (Int × Int)} (h : Cascade b ps b')
    (r c : Int)
    (hk : (b.board r c).state = State.Revealed ∨ (b.board r c).mine = true
      ∨ isValidSpace b c r = false) :
    b'.board r c = b.board r c := by
  rcases h.cell r c with h1 | ⟨hv, hm, hs, _, _⟩
  · exact h1
  · rcases hk with hk | hk | hk
    · exact absurd hk hs
    · rw [hm] at hk; exact absurd hk (by simp)
    · rw [hv] at hk; exact absurd hk (by simp)

/-- A cascade never hides a revealed cell. -/
theorem Cascade.revealed_mono {b b' : Board} {ps : List (Int × Int)} (h : Cascade b ps b')
    (r c : Int) (hr : (b.board r c).state = State.Revealed) :
    (b'.board r c).state = State.Revealed := by
  rw [h.keep r c (Or.inl hr)]; exact hr

/-- Every cell is `Revealed` afterwards or has kept its value. -/
theorem Cascade.revealed_or_same {b b' : Board} {ps : List (Int × Int)} (h : Cascade b ps b')
    (r c : Int) : (b'.board r c).state = State.Revealed ∨ b'.board r c = b.board r c := by
  rcases h.cell r c with h1 | ⟨_, _, _, h1, _⟩
  · exact Or.inr h1
  · left; rw [h1]

theorem cascadeStep_congr {b b' : Board} (hw : b'.width = b.width) (hh : b'.height = b.height)
    (hm : ∀ r c : Int, (b'.board r c).mine = (b.board r c).mine) (p q : Int × Int)
    (h : cascadeStep b' p q) : cascadeStep b p q := by
  unfold cascadeStep at *
  rw [isValidSpace_congr hw hh, countAdjacentMines_congr hw hh hm] at h
  exact h

theorem Cascade.nil (b : Board) : Cascade b [] b where
  width_eq := rfl
  height_eq := rfl
  flags_eq := rfl
  mines_eq := rfl
  cell := fun _ _ => Or.inl rfl
  target := fun s hs => absurd hs (List.not_mem_nil s)
  closure := fun _ _ _ h1 h2 => absurd h1 h2

/-- Two cascades in a row are one cascade from the union of their starts. -/
theorem Cascade.append {b b1 b2 : Board} {ps qs : List (Int × Int)}
    (h1 : Cascade b ps b1) (h2 : Cascade b1 qs b2) : Cascade b (ps ++ qs) b2 where
  width_eq := h2.width_eq.trans h1.width_eq
  height_eq := h2.height_eq.trans h1.height_eq
  flags_eq := h2.flags_eq.trans h1.flags_eq
  mines_eq := h2.mines_eq.trans h1.mines_eq
  cell := by
    intro r c
    rcases h2.cell r c with e2 | ⟨hv2, hm2, hs2, e2, s, hs, hpath⟩
    · rcases h1.cell r c with e1 | ⟨hv1, hm1, hs1, e1, s, hs, hpath⟩
      · exact Or.inl (e2.trans e1)
      · exact Or.inr ⟨hv1, hm1, hs1, e2.trans e1, s, List.mem_append_left _ hs, hpath⟩
    · have e1 : b1.board r c = b.board r c := by
        rcases h1.revealed_or_same r c with hr | e1
        · exact absurd hr hs2
        · exact e1
      refine Or.inr ⟨?_, ?_, ?_, ?_, s, List.mem_append_right _ hs, ?_⟩
      · rw [← h1.valid_eq]; exact hv2
      · rw [← e1]; exact hm2
      · rw [← e1]; exact hs2
      · rw [e2, h1.count_eq]
      · exact Relation.ReflTransGen.mono
          (cascadeStep_congr h1.width_eq h1.height_eq h1.mine_eq) hpath
  target := by
    intro s hs hv hm
    rcases List.mem_append.mp hs with hs | hs
    · exact h2.revealed_mono _ _ (h1.target s hs hv hm)
    · refine h2.target s hs ?_ ?_
      · rw [h1.valid_eq]; exact hv
      · rw [h1.mine_eq]; exact hm
  closure := by
    intro x y hv hr hnr hz u v hn hvu
    by_cases hr1 : (b1.board y x).state = State.Revealed
    · exact h2.revealed_mono _ _ (h1.closure x y hv hr1 hnr hz u v hn hvu)
    · refine h2.closure x y ?_ hr hr1 ?_ u v hn ?_
      · rw [h1.valid_eq]; exact hv
      · rw [h1.count_eq]; exact hz
      · rw [h1.valid_eq]; exact hvu

theorem revealSeq_none (f : Board → Int → Int → Option Board) (ps : List (Int × Int)) :
    revealSeq f ps none = none := by
  induction ps with
  | nil => rfl
  | cons p ps ih => simpa [revealSeq] using ih

theorem revealSeq_cons (f : Board → Int → Int → Option Board) (p : Int × Int)
    (ps : List (Int × Int)) (b : Board) :
    revealSeq f (p :: ps) (some b) = revealSeq f ps (f b p.1 p.2) := rfl

/-- A run of calls, each of which is a cascade from its own start, is a cascade. -/
theorem revealSeq_cascade (f : Board → Int → Int → Option Board)
    (hf : ∀ (b : Board) (x y : Int) (b' : Board), f b x y = some b' → Cascade b [(x, y)] b')
    (ps : List (Int × Int)) :
    ∀ (b b' : Board), revealSeq f ps (some b) = some b' → Cascade b ps b' := by
  induction ps with
  | nil =>
    intro b b' h
    cases Option.some.inj h
    exact Cascade.nil b
  | cons p ps ih =>
    intro b b' h
    rw [revealSeq_cons] at h
    cases hp : f b p.1 p.2 with
    | none => rw [hp, revealSeq_none] at h; exact absurd h (by simp)
    | some b1 =>
      rw [hp] at h
      exact Cascade.append (hf b p.1 p.2 b1 hp) (ih b1 b' h)

/-- The recursive case of `revealConnectedFuel`, its loop nest written as a run over
the 3×3 block. -/
theorem revealConnectedFuel_succ (fuel : Nat) (b : Board) (x y : Int) :
    revealConnectedFuel (fuel + 1) b x y
      = if isValidSpace b x y && !(b.board y x).mine
            && decide ((b.board y x).state ≠ State.Revealed) then
          if countAdjacentMines b x y > 0 then
            some (revealCell b x y (sprintfD (countAdjacentMines b x y)))
          else revealSeq (revealConnectedFuel fuel) (around x y) (some (revealCell b x y "0"))
        else some b := rfl

theorem revealCell_board (b : Board) (x y : Int) (t : String) (r c : Int) :
    (revealCell b x y t).board r c
      = if r = y ∧ c = x then { mine := (b.board y x).mine, text := t, state := State.Revealed }
        else b.board r c := by
  unfold revealCell
  simp only [modify_board]
  by_cases h : r = y ∧ c = x
  · simp only [if_pos h]; rw [h.1, h.2]
  · simp only [if_neg h]

theorem revealCell_mine (b : Board) (x y : Int) (t : String) (r c : Int) :
    ((revealCell b x y t).board r c).mine = (b.board r c).mine := by
  rw [revealCell_board]
  by_cases hrc : r = y ∧ c = x
  · rw [if_pos hrc, hrc.1, hrc.2]
  · rw [if_neg hrc]

theorem revealCell_count (b : Board) (x y : Int) (t : String) (u v : Int) :
    countAdjacentMines (revealCell b x y t) u v = countAdjacentMines b u v :=
  @countAdjacentMines_congr b (revealCell b x y t) rfl rfl (revealCell_mine b x y t) u v

theorem revealCell_step (b : Board) (x y : Int) (t : String) (p q : Int × Int)
    (h : cascadeStep (revealCell b x y t) p q) : cascadeStep b p q :=
  @cascadeStep_congr b (revealCell b x y t) rfl rfl (revealCell_mine b x y t) p q h

/-- Revealing the start cell and then cascading from its 3×3 block (when its count is 0)
is a cascade from the start cell. -/
theorem Cascade.of_reveal {b b' : Board} {x y : Int} (hv : isValidSpace b x y = true)
    (hm : (b.board y x).mine = false) (hs : (b.board y x).state ≠ State.Revealed)
    (h : Cascade (revealCell b x y (countText (countAdjacentMines b x y)))
      (if countAdjacentMines b x y = 0 then around x y else []) b') :
    Cascade b [(x, y)] b' := by
  have hself : b'.board y x
      = { mine := false, text := countText (countAdjacentMines b x y),
          state := State.Revealed } := by
    rw [h.keep y x (Or.inl (by rw [revealCell_board, if_pos ⟨rfl, rfl⟩])), revealCell_board,
      if_pos ⟨rfl, rfl⟩, hm]
  refine ⟨h.width_eq, h.height_eq, h.flags_eq, h.mines_eq, ?_, ?_, ?_⟩
  · intro r c
    by_cases hrc : r = y ∧ c = x
    · obtain ⟨rfl, rfl⟩ := hrc
      exact Or.inr ⟨hv, hm, hs, hself, (c, r), List.mem_singleton.mpr rfl,
        Relation.ReflTransGen.refl⟩
    · rcases h.cell r c with e | ⟨hv2, hm2, hs2, e, s, hsm, hpath⟩
      · left
        rw [e, revealCell_board, if_neg hrc]
      · rw [revealCell_board, if_neg hrc] at hm2 hs2
        have hv2 : isValidSpace b c r = true := hv2
        by_cases hz : countAdjacentMines b x y = 0
        · rw [if_pos hz] at hsm
          refine Or.inr ⟨hv2, hm2, hs2, ?_, (x, y), List.mem_singleton.mpr rfl, ?_⟩
          · rw [e, revealCell_count]
          · exact Relation.ReflTransGen.head ⟨hv, hz, (mem_around x y s).mp hsm⟩
              (Relation.ReflTransGen.mono (revealCell_step b x y _) hpath)
        · rw [if_neg hz] at hsm
          exact absurd hsm (List.not_mem_nil s)
  · intro s hsm _ _
    cases List.mem_singleton.mp hsm
    show (b'.board y x).state = State.Revealed
    rw [hself]
  · intro x0 y0 hv0 hr0 hnr0 hz0 u v hn hvu
    by_cases hxy : y0 = y ∧ x0 = x
    · obtain ⟨rfl, rfl⟩ := hxy
      rw [if_pos hz0] at h
      refine h.target (u, v) ((mem_around x0 y0 (u, v)).mpr hn) hvu ?_
      rw [revealCell_mine]
      exact (countAdjacentMines_eq_zero b x0 y0).mp hz0 u v hn hvu
    · refine h.closure x0 y0 hv0 hr0 ?_ ?_ u v hn hvu
      · rw [revealCell_board, if_neg hxy]; exact hnr0
      · rw [revealCell_count]; exact hz0

/-- Whenever `revealConnectedFuel` returns a board, it has run a cascade from `(x, y)`. -/
theorem revealConnectedFuel_cascade :
    ∀ (fuel : Nat) (b : Board) (x y : Int) (b' : Board),
      revealConnectedFuel fuel b x y = some b' → Cascade b [(x, y)] b' := by
  intro fuel
  induction fuel with
  | zero =>
    intro b x y b' h
    exact absurd h (by simp [revealConnectedFuel])
  | succ fuel ih =>
    intro b x y b' h
    rw [revealConnectedFuel_succ] at h
    split at h
    · rename_i hg
      simp only [Bool.and_eq_true, Bool.not_eq_true', decide_eq_true_eq] at hg
      obtain ⟨⟨hv, hm⟩, hs⟩ := hg
      apply Cascade.of_reveal hv hm hs
      split at h
      · rename_i hpos
        cases Option.some.inj h
        have hz : ¬ countAdjacentMines b x y = 0 := by omega
        rw [if_neg hz]
        have ht : countText (countAdjacentMines b x y) = sprintfD (countAdjacentMines b x y) := by
          unfold countText; rw [if_pos hpos]
        rw [ht]
        exact Cascade.nil _
      · rename_i hpos
        have hz : countAdjacentMines b x y = 0 := by
          have := countAdjacentMines_nonneg b x y
          omega
        have ht : countText (countAdjacentMines b x y) = "0" := by
          unfold countText; rw [if_neg hpos]
        rw [if_pos hz, ht]
        exact revealSeq_cascade (revealConnectedFuel fuel) ih (around x y) _ _ h
    · rename_i hg
      cases Option.some.inj h
      refine ⟨rfl, rfl, rfl, rfl, fun _ _ => Or.inl rfl, ?_, fun _ _ _ h1 h2 => absurd h1 h2⟩
      intro s hsm hv hm
      cases List.mem_singleton.mp hsm
      by_contra hs
      apply hg
      simp only [Bool.and_eq_true, Bool.not_eq_true', decide_eq_true_eq]
      exact ⟨⟨hv, hm⟩, hs⟩

/-! ## Termination of `revealConnected` -/

theorem countCells_le (p : Space → Bool) (b : Board) : countCells p b ≤ b.width * b.height := by
  rw [countCells_eq_sum]
  have h := Finset.sum_le_card_nsmul (Finset.range b.height ×ˢ Finset.range b.width)
    (fun e : Nat × Nat => if p (b.board (e.1 : Int) (e.2 : Int)) = true then 1 else 0) 1
    (by intro e _; dsimp only; split <;> omega)
  simp only [Finset.card_product, Finset.card_range, smul_eq_mul, mul_one] at h
  rw [Nat.mul_comm]
  exact h

/-- A cascade never adds a cell that is still to be revealed. -/
theorem Cascade.todo_le {b b' : Board} {ps : List (Int × Int)} (h : Cascade b ps b') :
    todoCount b' ≤ todoCount b := by
  apply countCells_mono _ b b' h.width_eq h.height_eq
  intro r c _ hp
  rcases h.revealed_or_same r c with hr | e
  · simp [hr] at hp
  · rw [← e]; exact hp

/-- Revealing an unrevealed non-mine grid cell leaves one cell less to reveal. -/
theorem todoCount_revealCell (b : Board) (x y : Int) (t : String)
    (hv : isValidSpace b x y = true) (hm : (b.board y x).mine = false)
    (hs : (b.board y x).state ≠ State.Revealed) :
    todoCount (revealCell b x y t) + 1 = todoCount b := by
  have h1 := countCells_modify (fun s => !s.mine && decide (s.state ≠ State.Revealed)) b x y
    (fun s => { s with state := State.Revealed }) hv
  have h2 := countCells_modify (fun s => !s.mine && decide (s.state ≠ State.Revealed))
    (b.modify y x (fun s => { s with state := State.Revealed })) x y
    (fun s => { s with text := t }) hv
  simp only [modify_board, and_self, if_true, hm, hs, ne_eq, not_true_eq_false,
    not_false_eq_true, decide_True, decide_False, Bool.not_false, Bool.and_true,
    Bool.and_false, Bool.and_self] at h1 h2
  unfold todoCount revealCell
  simp only [ne_eq]
  simp only [if_true, Bool.false_eq_true, if_false] at h1 h2
  omega

theorem revealSeq_isSome (f : Board → Int → Int → Option Board) (n : Nat)
    (hf : ∀ (b : Board) (x y : Int) (b' : Board), f b x y = some b' → Cascade b [(x, y)] b')
    (hsome : ∀ (b : Board) (x y : Int), todoCount b < n → ∃ b', f b x y = some b')
    (ps : List (Int × Int)) :
    ∀ b : Board, todoCount b < n → ∃ b', revealSeq f ps (some b) = some b' := by
  induction ps with
  | nil => intro b _; exact ⟨b, rfl⟩
  | cons p ps ih =>
    intro b hb
    obtain ⟨b1, h1⟩ := hsome b p.1 p.2 hb
    rw [revealSeq_cons, h1]
    exact ih b1 (lt_of_le_of_lt (hf b p.1 p.2 b1 h1).todo_le hb)

/-- A depth budget above the number of cells still to reveal is enough: the recursion of
`revealConnected` returns. -/
theorem revealConnectedFuel_isSome :
    ∀ (fuel : Nat) (b : Board) (x y : Int), todoCount b < fuel →
      ∃ b', revealConnectedFuel fuel b x y = some b' := by
  intro fuel
  induction fuel with
  | zero => intro b x y h; exact absurd h (Nat.not_lt_zero _)
  | succ fuel ih =>
    intro b x y hb
    rw [revealConnectedFuel_succ]
    split
    · rename_i hg
      simp only [Bool.and_eq_true, Bool.not_eq_true', decide_eq_true_eq] at hg
      obtain ⟨⟨hv, hm⟩, hs⟩ := hg
      split
      · exact ⟨_, rfl⟩
      · have ht := todoCount_revealCell b x y "0" hv hm hs
        exact revealSeq_isSome (revealConnectedFuel fuel) fuel
          (revealConnectedFuel_cascade fuel) ih (around x y) _ (by omega)
    · exact ⟨b, rfl⟩

/-- The budget `revealConnected` passes is enough. -/
theorem revealConnected_eq (b : Board) (x y : Int) :
    revealConnectedFuel (b.width * b.height + 1) b x y = some (revealConnected b x y) := by
  obtain ⟨b', h⟩ := revealConnectedFuel_isSome (b.width * b.height + 1) b x y
    (Nat.lt_succ_of_le (countCells_le _ b))
  unfold revealConnected
  rw [h]

/-- The method `revealConnected` runs a cascade from `(x, y)`. -/
theorem revealConnected_cascade (b : Board) (x y : Int) :
    Cascade b [(x, y)] (revealConnected b x y) :=
  revealConnectedFuel_cascade _ b x y _ (revealConnected_eq b x y)

/-! ## Invariants of reachable boards -/

/-- The closure property survives any change that keeps the mines, keeps revealed cells
revealed and newly reveals only cells that are mines. -/
theorem cascadeClosed_of {b b' : Board} (hw : b'.width = b.width) (hh : b'.height = b.height)
    (hm : ∀ r c : Int, (b'.board r c).mine = (b.board r c).mine)
    (hnew : ∀ r c : Int, (b'.board r c).state = State.Revealed →
      (b.board r c).state = State.Revealed ∨ (b.board r c).mine = true)
    (hmono : ∀ r c : Int, (b.board r c).state = State.Revealed →
      (b'.board r c).state = State.Revealed)
    (h : cascadeClosed b) : cascadeClosed b' := by
  intro x y hv hr hz u v hn hvu
  rw [isValidSpace_congr hw hh] at hv hvu
  rw [countAdjacentMines_congr hw hh hm] at hz
  rcases hnew y x hr with h1 | h1
  · exact hmono v u (h x y hv h1 hz u v hn hvu)
  · have := (countAdjacentMines_eq_zero b x y).mp hz x y (near_self x y) hv
    rw [this] at h1
    exact absurd h1 (by simp)

/-- A cascade on a board with the closure property gives a board with it. -/
theorem Cascade.closed {b b' : Board} {ps : List (Int × Int)} (h : Cascade b ps b')
    (hc : cascadeClosed b) : cascadeClosed b' := by
  intro x y hv hr hz u v hn hvu
  rw [h.valid_eq] at hv hvu
  rw [h.count_eq] at hz
  by_cases h1 : (b.board y x).state = State.Revealed
  · exact h.revealed_mono v u (hc x y hv h1 hz u v hn hvu)
  · exact h.closure x y hv hr h1 hz u v hn hvu

/-- Overwriting one grid cell moves the number of flagged cells by that cell alone. -/
theorem flaggedCount_modify (b : Board) (x y : Int) (g : Space → Space)
    (hv : isValidSpace b x y = true) :
    (flaggedCount (b.modify y x g) : Int)
      = flaggedCount b - (if (b.board y x).state = State.Flagged then 1 else 0)
        + (if (g (b.board y x)).state = State.Flagged then 1 else 0) := by
  have h := countCells_modify (fun s => decide (s.state = State.Flagged)) b x y g hv
  simp only [decide_eq_true_eq] at h
  unfold flaggedCount
  split <;> split <;> simp_all
  all_goals omega

/-- Rewriting one unrevealed grid cell into an unrevealed cell with the same mine bit,
with a flag counter that respects the budget, keeps the invariants. -/
theorem GameInv.restate {N : Nat} {b : Board} (h : GameInv N b) (x y : Int)
    (g : Space → Space) (f : Int)
    (hgm : (g (b.board y x)).mine = (b.board y x).mine)
    (hold : (b.board y x).state ≠ State.Revealed)
    (hnew : (g (b.board y x)).state ≠ State.Revealed)
    (htext : (g (b.board y x)).state = State.Hidden → (g (b.board y x)).text = "-")
    (hbudget : f + flaggedCount (b.modify y x g) ≤ N) :
    GameInv N { b.modify y x g with flags := f } := by
  have hcell : ∀ r c : Int, (r = y ∧ c = x ∧ (b.modify y x g).board r c = g (b.board y x))
      ∨ (¬ (r = y ∧ c = x) ∧ (b.modify y x g).board r c = b.board r c) := by
    intro r c
    rw [modify_board]
    by_cases hrc : r = y ∧ c = x
    · left; rw [if_pos hrc, hrc.1, hrc.2]; exact ⟨rfl, rfl, rfl⟩
    · right; rw [if_neg hrc]; exact ⟨hrc, rfl⟩
  refine ⟨h.width_eq, h.height_eq, h.mines_eq, hbudget, ?_, ?_⟩
  · refine @cascadeClosed_of b _ rfl rfl ?_ ?_ ?_ h.closed
    · intro r c
      rcases hcell r c with ⟨h1, h2, e⟩ | ⟨_, e⟩
      · show ((b.modify y x g).board r c).mine = _
        rw [e, hgm, h1, h2]
      · show ((b.modify y x g).board r c).mine = _
        rw [e]
    · intro r c hr
      have hr : ((b.modify y x g).board r c).state = State.Revealed := hr
      rcases hcell r c with ⟨_, _, e⟩ | ⟨_, e⟩
      · rw [e] at hr; exact absurd hr hnew
      · rw [e] at hr; exact Or.inl hr
    · intro r c hr
      show ((b.modify y x g).board r c).state = State.Revealed
      rcases hcell r c with ⟨h1, h2, _⟩ | ⟨_, e⟩
      · rw [h1, h2] at hr; exact absurd hr hold
      · rw [e]; exact hr
  · intro r c hs
    have hs : ((b.modify y x g).board r c).state = State.Hidden := hs
    show ((b.modify y x g).board r c).text = "-"
    rcases hcell r c with ⟨_, _, e⟩ | ⟨_, e⟩
    · rw [e] at hs ⊢; exact htext hs
    · rw [e] at hs ⊢; exact h.hidden_text r c hs

theorem GameInv.flag {N : Nat} {b : Board} (h : GameInv N b) (x y : Int)
    (hv : isValidSpace b x y = true) : GameInv N (attemptFlag b x y).1 := by
  have hb := h.budget
  unfold attemptFlag
  split
  · rename_i h1
    apply h.restate x y (fun s => { s with state := State.Flagged, text := "F" }) (b.flags - 1)
      rfl (by rw [h1.1]; simp) (by simp) (by simp)
    rw [flaggedCount_modify b x y _ hv]
    simp only [h1.1, reduceCtorEq, if_false, if_true]
    omega
  · split
    · rename_i h1 h2
      apply h.restate x y (fun s => { s with state := State.Hidden, text := "-" }) (b.flags + 1)
        rfl (by rw [h2]; simp) (by simp) (by simp)
      rw [flaggedCount_modify b x y _ hv]
      simp only [h2, reduceCtorEq, if_false, if_true]
      omega
    · exact h

theorem flaggedCount_eq_zero (b : Board)
    (h : ∀ x y : Int, isValidSpace b x y = true → (b.board y x).state = State.Hidden) :
    flaggedCount b = 0 := by
  unfold flaggedCount
  rw [countCells_eq_sum]
  apply Finset.sum_eq_zero
  intro e he
  simp only [Finset.mem_product, Finset.mem_range] at he
  have hv : isValidSpace b (e.2 : Int) (e.1 : Int) = true := by
    rw [isValidSpace_iff]; omega
  simp [h _ _ hv]

theorem GameInv.lower_flags {N : Nat} {b : Board} (h : GameInv N b) :
    GameInv N { b with flags := b.flags - 1 } := by
  refine ⟨h.width_eq, h.height_eq, h.mines_eq, ?_, h.closed, h.hidden_text⟩
  have hb := h.budget
  show b.flags - 1 + (flaggedCount b : Int) ≤ N
  omega

theorem GameInv.revealHidden {N : Nat} {b : Board} (h : GameInv N b) (x y : Int)
    (hv : isValidSpace b x y = true) :
    GameInv N (attemptRevealHidden b x y).1 := by
  have hb := h.budget
  unfold attemptRevealHidden
  split
  · rename_i hmine
    have hcell : ∀ r c : Int,
        (r = y ∧ c = x ∧ (b.modify y x (fun s => { s with state := State.Revealed })).board r c
            = { b.board y x with state := State.Revealed })
        ∨ (¬ (r = y ∧ c = x)
          ∧ (b.modify y x (fun s => { s with state := State.Revealed })).board r c
            = b.board r c) := by
      intro r c
      rw [modify_board]
      by_cases hrc : r = y ∧ c = x
      · left; rw [if_pos hrc, hrc.1, hrc.2]; exact ⟨rfl, rfl, rfl⟩
      · right; rw [if_neg hrc]; exact ⟨hrc, rfl⟩
    have hfc := flaggedCount_modify b x y (fun s => { s with state := State.Revealed }) hv
    simp only [reduceCtorEq, if_false] at hfc
    show GameInv N (b.modify y x (fun s => { s with state := State.Revealed }))
    refine ⟨h.width_eq, h.height_eq, h.mines_eq, ?_, ?_, ?_⟩
    · rw [modify_flags, hfc]
      split <;> omega
    · refine @cascadeClosed_of b _ rfl rfl ?_ ?_ ?_ h.closed
      · intro r c
        rcases hcell r c with ⟨h1, h2, e⟩ | ⟨_, e⟩
        · rw [e, h1, h2]
        · rw [e]
      · intro r c hr
        rcases hcell r c with ⟨h1, h2, _⟩ | ⟨_, e⟩
        · right; rw [h1, h2]; exact hmine
        · left; rw [e] at hr; exact hr
      · intro r c hr
        rcases hcell r c with ⟨_, _, e⟩ | ⟨_, e⟩
        · rw [e]
        · rw [e]; exact hr
    · intro r c hs
      rcases hcell r c with ⟨_, _, e⟩ | ⟨_, e⟩
      · rw [e] at hs; exact absurd hs (by simp)
      · rw [e] at hs ⊢; exact h.hidden_text r c hs
  · have hc := revealConnected_cascade b x y
    show GameInv N (revealConnected b x y)
    refine ⟨hc.width_eq.trans h.width_eq, hc.height_eq.trans h.height_eq,
      hc.mines_eq.trans h.mines_eq, ?_, hc.closed h.closed, ?_⟩
    · have hle : flaggedCount (revealConnected b x y) ≤ flaggedCount b := by
        apply countCells_mono _ b _ hc.width_eq hc.height_eq
        intro r c _ hp
        rcases hc.revealed_or_same r c with hr | e
        · simp [hr] at hp
        · rw [← e]; exact hp
      rw [hc.flags_eq]
      omega
    · intro r c hs
      rcases hc.revealed_or_same r c with hr | e
      · rw [hr] at hs; exact absurd hs (by simp)
      · rw [e] at hs ⊢; exact h.hidden_text r c hs

theorem GameInv.reveal {N : Nat} {b : Board} (h : GameInv N b) (x y : Int)
    (hv : isValidSpace b x y = true) : GameInv N (attemptReveal b x y).1 := by
  unfold attemptReveal
  split
  · exact h.lower_flags.revealHidden x y hv
  · exact h.revealHidden x y hv
  · exact h

theorem GameInv.reset {N : Nat} {b b' : Board} (h : GameInv N b) (samples : List (Int × Int))
    (hs : validSamples b samples) (hr : resetBoard b samples = some b') : GameInv N b' := by
  obtain ⟨hw, hh, hf, hm, hin, hout, _⟩ :=
    resetBoard_spec b b' samples (h.width_eq.trans h.height_eq.symm) hs hr
  have hvalid : ∀ x y : Int, isValidSpace b' x y = isValidSpace b x y :=
    isValidSpace_congr hw hh
  refine ⟨hw.trans h.width_eq, hh.trans h.height_eq, hm.trans h.mines_eq, ?_, ?_, ?_⟩
  · have hz : flaggedCount b' = 0 :=
      flaggedCount_eq_zero b' (fun x y hv => (hin x y (by rw [← hvalid]; exact hv)).1)
    have hb := h.budget
    rw [hz, hf]
    omega
  · intro x y hv hrev
    rw [hvalid] at hv
    rw [(hin x y hv).1] at hrev
    exact absurd hrev (by simp)
  · intro r c hst
    by_cases hv : isValidSpace b c r = true
    · exact (hin c r hv).2
    · have hv : isValidSpace b c r = false := by simpa using hv
      obtain ⟨e1, e2⟩ := hout r c hv
      rw [e2]
      rw [e1] at hst
      exact h.hidden_text r c hst

theorem GameInv.blank (N : Nat) : GameInv N (Board.blank N) := by
  refine ⟨rfl, rfl, rfl, ?_, ?_, ?_⟩
  · have hz : flaggedCount (Board.blank N) = 0 := flaggedCount_eq_zero _ (fun _ _ _ => rfl)
    rw [hz]
    show (N : Int) + ((0 : Nat) : Int) ≤ N
    omega
  · intro x y _ hrev
    exact absurd hrev (by simp [Board.blank, Space.new, Space.reset])
  · intro r c _
    rfl

/-- Every reachable board satisfies the invariants. -/
theorem reachable_inv {N : Nat} {b : Board} (h : Reachable N b) : GameInv N b := by
  induction h with
  | construct samples b hs hb => exact (GameInv.blank N).reset samples hs hb
  | flag b x y _ hv ih => exact ih.flag x y hv
  | reveal b x y _ hv ih => exact ih.reveal x y hv
  | reset b samples b' _ hs hr ih => exact ih.reset samples hs hr

/-! ## Example boards are reachable -/

theorem validSamples_of_all (b : Board) (samples : List (Int × Int))
    (h : (samples.all fun p => isValidSpace b p.1 p.2) = true) : validSamples b samples := by
  intro p hp
  exact List.all_eq_true.mp h p hp

theorem exNew2_reachable : Reachable 2 exNew2 :=
  Reachable.construct [(0, 0), (0, 0), (1, 1)] exNew2 (validSamples_of_all _ _ rfl) rfl

theorem exFlagged2_reachable : Reachable 2 exFlagged2 :=
  Reachable.flag exNew2 1 0 exNew2_reachable rfl

theorem exBothFlagged2_reachable : Reachable 2 exBothFlagged2 :=
  Reachable.flag exFlagged2 0 1 exFlagged2_reachable rfl

theorem exNew4_reachable : Reachable 4 exNew4 :=
  Reachable.construct [(0, 0), (1, 0), (0, 1), (1, 1)] exNew4 (validSamples_of_all _ _ rfl) rfl

/-- The loops of `winCheck` return `true` exactly when no `board[i][j]`, `i < width`,
`j < height`, is `Hidden`. -/
theorem winCheck_eq_true (b : Board) :
    winCheck b = true
      ↔ ∀ i j : Nat, i < b.width → j < b.height →
          ((b.board (i : Int) (j : Int)).state = State.Revealed
            ∨ (b.board (i : Int) (j : Int)).state = State.Flagged) := by
  unfold winCheck
  simp only [List.all_eq_true, List.mem_range, Bool.not_eq_true', Bool.and_eq_false_iff,
    decide_eq_false_iff_not, ne_eq, not_not]
  constructor
  · intro h i j hi hj
    exact (h i hi j hj).symm
  · intro h i hi j hj
    exact (h i j hi hj).symm

/-! ## The extent of a cascade -/

/-- On an unrevealed cell that is no mine, `attemptReveal` returns `Empty` and runs a cascade
from the cell, after at most an update of the flag counter. -/
theorem attemptReveal_cascade (b : Board) (x y : Int)
    (hm : (b.board y x).mine = false) (hs : (b.board y x).state ≠ State.Revealed) :
    (attemptReveal b x y).2 = MoveReturnState.Empty
    ∧ ∃ f : Int, Cascade { b with flags := f } [(x, y)] (attemptReveal b x y).1 := by
  have hhid : ∀ f : Int, attemptRevealHidden { b with flags := f } x y
      = (revealConnected { b with flags := f } x y, MoveReturnState.Empty) := by
    intro f
    unfold attemptRevealHidden
    have hm' : (({ b with flags := f } : Board).board y x).mine = false := hm
    rw [hm']
    rfl
  unfold attemptReveal
  split
  · rw [hhid]
    exact ⟨rfl, b.flags - 1, revealConnected_cascade _ x y⟩
  · have := hhid b.flags
    rw [this]
    exact ⟨rfl, b.flags, revealConnected_cascade _ x y⟩
  · rename_i h
    exact absurd h hs

/-- Every cell a cascade step sequence reaches from a count-0 grid cell lies in the 3×3
block of a cell of that cell's count-0 region. -/
theorem cascade_within_region (b : Board) (x y : Int) (q : Int × Int)
    (h : Relation.ReflTransGen (cascadeStep b) (x, y) q) :
    ∃ p : Int × Int, zeroRegion b x y p.1 p.2 ∧ near p.1 p.2 q.1 q.2 := by
  induction h with
  | refl => exact ⟨(x, y), Relation.ReflTransGen.refl, near_self x y⟩
  | @tail p' q' _ hstep ih =>
    obtain ⟨p0, hreg, hnear⟩ := ih
    obtain ⟨hv, hz, hn⟩ := hstep
    refine ⟨p', ?_, hn⟩
    by_cases he : p'.1 = p0.1 ∧ p'.2 = p0.2
    · have : p' = p0 := Prod.ext he.1 he.2
      rw [this]; exact hreg
    · exact Relation.ReflTransGen.tail hreg ⟨⟨hnear, he⟩, hv, hz⟩

/-! ## More on `countAdjacentMines` -/

/-- The count is the number of mines at the 8 surrounding offsets, plus one when the
centre is a grid cell holding a mine. -/
theorem countAdjacentMines_split (b : Board) (x y : Int) :
    countAdjacentMines b x y
      = (adjacentMines8 b x y : Int)
        + (if isValidSpace b x y = true ∧ (b.board y x).mine = true then 1 else 0) := by
  rw [countAdjacentMines_eq]
  unfold adjacentMines8
  simp only [around, around8, List.countP_cons, List.countP_nil, add_zero, Bool.and_eq_true]
  push_cast
  split <;> omega

theorem adjacentMines8_le (b : Board) (x y : Int) : adjacentMines8 b x y ≤ 8 := by
  unfold adjacentMines8
  have h := @List.countP_le_length (Int × Int) (fun p : Int × Int =>
    isValidSpace b p.1 p.2 && (b.board p.2 p.1).mine) (around8 x y)
  have hl : (around8 x y).length = 8 := rfl
  omega

/-- On a cell that is no mine the count is at most 8. -/
theorem countAdjacentMines_le_eight (b : Board) (x y : Int) (hm : (b.board y x).mine = false) :
    countAdjacentMines b x y ≤ 8 := by
  rw [countAdjacentMines_split]
  have := adjacentMines8_le b x y
  simp only [hm, Bool.false_eq_true, and_false, if_false]
  omega

/-- For a single digit `sprintf` with `%d` writes that digit. -/
theorem sprintfD_digit (k : Int) (h0 : 0 ≤ k) (h9 : k ≤ 9) : sprintfD k = digitText k := by
  interval_cases k <;> rfl

theorem countText_digit (k : Int) (h0 : 0 ≤ k) (h9 : k ≤ 9) : countText k = digitText k := by
  unfold countText
  split
  · exact sprintfD_digit k h0 h9
  · have : k = 0 := by omega
    rw [this]; rfl

/-! ## Single-cell reveals -/

/-- On an unrevealed grid cell that is no mine and has a positive count, `revealConnected`
reveals that cell and stops. -/
theorem revealConnected_pos (b : Board) (x y : Int) (hv : isValidSpace b x y = true)
    (hm : (b.board y x).mine = false) (hs : (b.board y x).state ≠ State.Revealed)
    (hk : countAdjacentMines b x y > 0) :
    revealConnected b x y = revealCell b x y (sprintfD (countAdjacentMines b x y)) := by
  have h := revealConnected_eq b x y
  rw [revealConnectedFuel_succ] at h
  have hg : (isValidSpace b x y && !(b.board y x).mine
      && decide ((b.board y x).state ≠ State.Revealed)) = true := by
    simp [hv, hm, hs]
  rw [if_pos hg, if_pos hk] at h
  exact (Option.some.inj h).symm

/-- Off the grid, on a mine or on a revealed cell `revealConnected` does nothing. -/
theorem revealConnected_noop (b : Board) (x y : Int)
    (h : isValidSpace b x y = false ∨ (b.board y x).mine = true
      ∨ (b.board y x).state = State.Revealed) :
    revealConnected b x y = b := by
  have he := revealConnected_eq b x y
  rw [revealConnectedFuel_succ] at he
  have hg : ¬ ((isValidSpace b x y && !(b.board y x).mine
      && decide ((b.board y x).state ≠ State.Revealed)) = true) := by
    rcases h with h | h | h <;> simp [h]
  rw [if_neg hg] at he
  exact (Option.some.inj he).symm

/-- The mine case of `attemptReveal`. -/
theorem attemptRevealHidden_mine (b : Board) (x y : Int) (hm : (b.board y x).mine = true) :
    attemptRevealHidden b x y
      = (b.modify y x (fun s => { s with state := State.Revealed }), MoveReturnState.Mine) := by
  unfold attemptRevealHidden
  rw [if_pos hm]

/-- No call of `attemptRevealHidden` changes a mine bit. -/
theorem attemptRevealHidden_mine_eq (b : Board) (x y r c : Int) :
    ((attemptRevealHidden b x y).1.board r c).mine = (b.board r c).mine := by
  unfold attemptRevealHidden
  split
  · show ((b.modify y x (fun s => { s with state := State.Revealed })).board r c).mine
      = (b.board r c).mine
    rw [modify_board]
    split <;> rfl
  · exact (revealConnected_cascade b x y).mine_eq r c

/-! ## The calls of `countAdjacentMines` -/

theorem logSeq_cons {E : Type} (f : Board → Int → Int → Option (Board × List E))
    (p : Int × Int) (ps : List (Int × Int)) (acc : Option (Board × List E)) :
    logSeq f (p :: ps) acc
      = logSeq f ps (acc.bind fun s => (f s.1 p.1 p.2).map fun t => (t.1, s.2 ++ t.2)) := rfl

/-- Dropping the logs of a logged run gives the plain run. -/
theorem logSeq_fst {E : Type} (f : Board → Int → Int → Option (Board × List E))
    (g : Board → Int → Int → Option Board)
    (hfg : ∀ (b : Board) (x y : Int), (f b x y).map Prod.fst = g b x y)
    (ps : List (Int × Int)) :
    ∀ acc : Option (Board × List E),
      (logSeq f ps acc).map Prod.fst = revealSeq g ps (acc.map Prod.fst) := by
  induction ps with
  | nil => intro acc; rfl
  | cons p ps ih =>
    intro acc
    rw [logSeq_cons, ih]
    cases acc with
    | none => rfl
    | some s =>
      show revealSeq g ps (((f s.1 p.1 p.2).map fun t => (t.1, s.2 ++ t.2)).map Prod.fst)
        = revealSeq g (p :: ps) (some s.1)
      rw [revealSeq_cons, ← hfg]
      cases f s.1 p.1 p.2 <;> rfl

/-- A property of all log entries of the single calls holds of all log entries of a run. -/
theorem logSeq_all {E : Type} (P : E → Prop)
    (f : Board → Int → Int → Option (Board × List E))
    (hf : ∀ (b : Board) (x y : Int) (r : Board × List E), f b x y = some r → ∀ e ∈ r.2, P e)
    (ps : List (Int × Int)) :
    ∀ (acc : Option (Board × List E)) (r : Board × List E),
      (∀ s, acc = some s → ∀ e ∈ s.2, P e) → logSeq f ps acc = some r → ∀ e ∈ r.2, P e := by
  induction ps with
  | nil =>
    intro acc r hacc h
    exact hacc r h
  | cons p ps ih =>
    intro acc r hacc h
    rw [logSeq_cons] at h
    refine ih _ r ?_ h
    intro s hs e he
    cases acc with
    | none => exact absurd hs (by simp)
    | some s0 =>
      have hs : ((f s0.1 p.1 p.2).map fun t => (t.1, s0.2 ++ t.2)) = some s := hs
      cases hcall : f s0.1 p.1 p.2 with
      | none => rw [hcall] at hs; exact absurd hs (by simp)
      | some t =>
        rw [hcall] at hs
        simp only [Option.map_some', Option.some.injEq] at hs
        rw [← hs] at he
        rcases List.mem_append.mp he with he | he
        · exact hacc s0 rfl e he
        · exact hf s0.1 p.1 p.2 t hcall e he

/-- The recursive case of `revealConnectedLog`, its loop nest written as a run over the
3×3 block. -/
theorem revealConnectedLog_succ (fuel : Nat) (b : Board) (x y : Int) :
    revealConnectedLog (fuel + 1) b x y
      = if isValidSpace b x y && !(b.board y x).mine
            && decide ((b.board y x).state ≠ State.Revealed) then
          if countAdjacentMines b x y > 0 then
            some (revealCell b x y (sprintfD (countAdjacentMines b x y)),
              [(x, y, (b.board y x).mine)])
          else
            logSeq (revealConnectedLog fuel) (around x y)
              (some (revealCell b x y "0", [(x, y, (b.board y x).mine)]))
        else some (b, []) := rfl

/-- The logging version computes the board `revealConnectedFuel` computes. -/
theorem revealConnectedLog_fst :
    ∀ (fuel : Nat) (b : Board) (x y : Int),
      (revealConnectedLog fuel b x y).map Prod.fst = revealConnectedFuel fuel b x y := by
  intro fuel
  induction fuel with
  | zero => intro b x y; rfl
  | succ fuel ih =>
    intro b x y
    rw [revealConnectedLog_succ, revealConnectedFuel_succ]
    split
    · split
      · rfl
      · exact logSeq_fst _ _ ih (around x y) _
    · rfl

/-- Every logged call of `countAdjacentMines` was made on a cell that is no mine. -/
theorem revealConnectedLog_calls :
    ∀ (fuel : Nat) (b : Board) (x y : Int) (r : Board × List (Int × Int × Bool)),
      revealConnectedLog fuel b x y = some r → ∀ e ∈ r.2, e.2.2 = false := by
  intro fuel
  induction fuel with
  | zero => intro b x y r h; exact absurd h (by simp [revealConnectedLog])
  | succ fuel ih =>
    intro b x y r h
    rw [revealConnectedLog_succ] at h
    split at h
    · rename_i hg
      simp only [Bool.and_eq_true, Bool.not_eq_true', decide_eq_true_eq] at hg
      obtain ⟨⟨_, hm⟩, _⟩ := hg
      split at h
      · cases Option.some.inj h
        intro e he
        cases List.mem_singleton.mp he
        exact hm
      · refine logSeq_all (fun e => e.2.2 = false) (revealConnectedLog fuel) ih (around x y)
          _ r ?_ h
        intro s hs e he
        cases Option.some.inj hs
        cases List.mem_singleton.mp he
        exact hm
    · cases Option.some.inj h
      intro e he
      exact absurd he (List.not_mem_nil e)

theorem exBlock9_reachable : Reachable 9 exBlock9 :=
  Reachable.construct
    [(0, 0), (1, 0), (2, 0), (0, 1), (1, 1), (2, 1), (0, 2), (1, 2), (2, 2)] exBlock9
    (validSamples_of_all _ _ rfl) rfl

/-! ## Counting over the grid -/

theorem countCells_eq_countGrid (p : Space → Bool) (b : Board) :
    countCells p b = countGrid b.width b.height (fun r c => p (b.board r c)) := rfl

theorem countGrid_eq_sum (w h : Nat) (q : Int → Int → Bool) :
    countGrid w h q
      = ∑ e in Finset.range h ×ˢ Finset.range w,
          if q (e.1 : Int) (e.2 : Int) = true then 1 else 0 := by
  unfold countGrid
  rw [list_sum_map_range, Finset.sum_product]
  apply Finset.sum_congr rfl
  intro r _
  rw [list_sum_map_range]

/-- A count splits along two properties that exclude each other. -/
theorem countGrid_add (w h : Nat) (q q1 q2 : Int → Int → Bool)
    (hq : ∀ r c : Int, 0 ≤ r → r < h → 0 ≤ c → c < w →
      ((q r c = true ↔ (q1 r c = true ∨ q2 r c = true))
        ∧ ¬ (q1 r c = true ∧ q2 r c = true))) :
    countGrid w h q = countGrid w h q1 + countGrid w h q2 := by
  rw [countGrid_eq_sum, countGrid_eq_sum, countGrid_eq_sum, ← Finset.sum_add_distrib]
  apply Finset.sum_congr rfl
  intro e he
  simp only [Finset.mem_product, Finset.mem_range] at he
  obtain ⟨hiff, hdis⟩ := hq (e.1 : Int) (e.2 : Int) (by omega) (by omega) (by omega) (by omega)
  by_cases h1 : q1 (e.1 : Int) (e.2 : Int) = true
  · have h2 : ¬ q2 (e.1 : Int) (e.2 : Int) = true := fun h2 => hdis ⟨h1, h2⟩
    have h0 : q (e.1 : Int) (e.2 : Int) = true := hiff.mpr (Or.inl h1)
    rw [if_pos h0, if_pos h1, if_neg h2]
  · by_cases h2 : q2 (e.1 : Int) (e.2 : Int) = true
    · have h0 : q (e.1 : Int) (e.2 : Int) = true := hiff.mpr (Or.inr h2)
      rw [if_pos h0, if_neg h1, if_pos h2]
    · have h0 : ¬ q (e.1 : Int) (e.2 : Int) = true := fun h0 => by
        rcases hiff.mp h0 with h | h
        · exact h1 h
        · exact h2 h
      rw [if_neg h0, if_neg h1, if_neg h2]

/-- Counts of properties that agree on the grid agree. -/
theorem countGrid_congr (w h : Nat) (q q1 : Int → Int → Bool)
    (hq : ∀ r c : Int, 0 ≤ r → r < h → 0 ≤ c → c < w → q r c = q1 r c) :
    countGrid w h q = countGrid w h q1 := by
  rw [countGrid_eq_sum, countGrid_eq_sum]
  apply Finset.sum_congr rfl
  intro e he
  simp only [Finset.mem_product, Finset.mem_range] at he
  rw [hq (e.1 : Int) (e.2 : Int) (by omega) (by omega) (by omega) (by omega)]

/-- A count that is zero has no instance on the grid. -/
theorem countGrid_eq_zero (w h : Nat) (q : Int → Int → Bool) (hz : countGrid w h q = 0)
    (r c : Int) (hr0 : 0 ≤ r) (hr : r < h) (hc0 : 0 ≤ c) (hc : c < w) : q r c = false := by
  rw [countGrid_eq_sum] at hz
  have hmem : (r.toNat, c.toNat) ∈ Finset.range h ×ˢ Finset.range w := by
    simp only [Finset.mem_product, Finset.mem_range]; omega
  have := (Finset.sum_eq_zero_iff.mp hz) (r.toNat, c.toNat) hmem
  simp only [Int.toNat_of_nonneg hr0, Int.toNat_of_nonneg hc0] at this
  by_contra hq
  have hq : q r c = true := by simpa using hq
  rw [if_pos hq] at this
  exact absurd this (by decide)

/-! ## Fuel and the measure of `revealConnected` -/

theorem revealSeq_mono (f g : Board → Int → Int → Option Board)
    (hfg : ∀ (b : Board) (x y : Int) (b' : Board), f b x y = some b' → g b x y = some b')
    (ps : List (Int × Int)) :
    ∀ (ob : Option Board) (b' : Board),
      revealSeq f ps ob = some b' → revealSeq g ps ob = some b' := by
  induction ps with
  | nil => intro ob b' h; exact h
  | cons p ps ih =>
    intro ob b' h
    cases ob with
    | none => rw [revealSeq_none] at h; exact absurd h (by simp)
    | some b =>
      rw [revealSeq_cons] at h ⊢
      cases hp : f b p.1 p.2 with
      | none => rw [hp, revealSeq_none] at h; exact absurd h (by simp)
      | some b1 =>
        rw [hp] at h
        rw [hfg b p.1 p.2 b1 hp]
        exact ih _ b' h

/-- A larger depth budget gives the same result. -/
theorem revealConnectedFuel_succ_mono :
    ∀ (fuel : Nat) (b : Board) (x y : Int) (b' : Board),
      revealConnectedFuel fuel b x y = some b' →
      revealConnectedFuel (fuel + 1) b x y = some b' := by
  intro fuel
  induction fuel with
  | zero => intro b x y b' h; exact absurd h (by simp [revealConnectedFuel])
  | succ fuel ih =>
    intro b x y b' h
    rw [revealConnectedFuel_succ] at h ⊢
    split
    · rename_i hg
      rw [if_pos hg] at h
      split
      · rename_i hk
        rw [if_pos hk] at h
        exact h
      · rename_i hk
        rw [if_neg hk] at h
        exact revealSeq_mono _ _ ih (around x y) _ b' h
    · rename_i hg
      rw [if_neg hg] at h
      exact h

theorem revealConnectedFuel_mono (fuel k : Nat) (b : Board) (x y : Int) (b' : Board)
    (h : revealConnectedFuel fuel b x y = some b') :
    revealConnectedFuel (fuel + k) b x y = some b' := by
  induction k with
  | zero => exact h
  | succ k ih => exact revealConnectedFuel_succ_mono (fuel + k) b x y b' ih

/-- Any depth budget above the number of cells still to reveal gives the result of
`revealConnected`. -/
theorem revealConnectedFuel_eq (fuel : Nat) (b : Board) (x y : Int)
    (hf : todoCount b < fuel) :
    revealConnectedFuel fuel b x y = some (revealConnected b x y) := by
  obtain ⟨b1, h1⟩ := revealConnectedFuel_isSome fuel b x y hf
  have h2 := revealConnectedFuel_mono fuel (b.width * b.height + 1) b x y b1 h1
  have h3 := revealConnectedFuel_mono (b.width * b.height + 1) fuel b x y _
    (revealConnected_eq b x y)
  rw [Nat.add_comm] at h3
  rw [h3] at h2
  rw [h1, Option.some.inj h2]

/-- A cascade turns cells to reveal into revealed cells, one for one. -/
theorem Cascade.revealed_add_todo {b b' : Board} {ps : List (Int × Int)}
    (h : Cascade b ps b') :
    revealedCount b' + todoCount b' = revealedCount b + todoCount b := by
  have split : ∀ b0 : Board, revealedCount b0 + todoCount b0
      = countCells (fun s => decide (s.state = State.Revealed) || !s.mine) b0 := by
    intro b0
    unfold revealedCount todoCount
    rw [countCells_eq_countGrid, countCells_eq_countGrid, countCells_eq_countGrid]
    symm
    apply countGrid_add
    intro r c _ _ _ _
    cases (b0.board r c).state <;> cases (b0.board r c).mine <;> simp
  rw [split, split, countCells_eq_countGrid, countCells_eq_countGrid, h.width_eq, h.height_eq]
  apply countGrid_congr
  intro r c _ _ _ _
  rcases h.cell r c with e | ⟨_, hm, _, e, _⟩
  · rw [e]
  · rw [e, hm]; simp

/-- No call of `attemptFlag` changes a mine bit. -/
theorem attemptFlag_mine_eq (b : Board) (x y r c : Int) :
    ((attemptFlag b x y).1.board r c).mine = (b.board r c).mine := by
  unfold attemptFlag
  split
  · show ((b.modify y x (fun s => { s with state := State.Flagged, text := "F" })).board
      r c).mine = (b.board r c).mine
    rw [modify_board]
    split <;> rfl
  · split
    · show ((b.modify y x (fun s => { s with state := State.Hidden, text := "-" })).board
        r c).mine = (b.board r c).mine
      rw [modify_board]
      split <;> rfl
    · rfl

/-- No call of `attemptReveal` changes a mine bit. -/
theorem attemptReveal_mine_eq (b : Board) (x y r c : Int) :
    ((attemptReveal b x y).1.board r c).mine = (b.board r c).mine := by
  unfold attemptReveal
  split
  · exact attemptRevealHidden_mine_eq { b with flags := b.flags - 1 } x y r c
  · exact attemptRevealHidden_mine_eq b x y r c
  · rfl

/-- A cascade takes flagged cells off the board only by revealing them. -/
theorem Cascade.flagged_split {b b' : Board} {ps : List (Int × Int)} (h : Cascade b ps b') :
    flaggedCount b' + passedOver b b' = flaggedCount b := by
  unfold flaggedCount passedOver
  rw [countCells_eq_countGrid, countCells_eq_countGrid, h.width_eq, h.height_eq]
  symm
  apply countGrid_add
  intro r c _ _ _ _
  rcases h.cell r c with e | ⟨_, _, _, e, _⟩
  · rw [e]
    cases (b.board r c).state <;> simp
  · rw [e]
    cases (b.board r c).state <;> simp

theorem exFlagged4_reachable : Reachable 4 exFlagged4 :=
  Reachable.flag _ 2 2 (Reachable.flag exNew4 3 3 exNew4_reachable rfl) rfl

/-! ## What the two moves do to a cell -/

/-- The three outcomes of `attemptFlag`. -/
theorem attemptFlag_cases (b : Board) (x y : Int) :
    ((b.board y x).state = State.Hidden ∧ b.flags > 0
      ∧ attemptFlag b x y
        = ({ b.modify y x (fun s => { s with state := State.Flagged, text := "F" }) with
              flags := b.flags - 1 }, MoveReturnState.Flagged))
    ∨ ((b.board y x).state = State.Flagged
      ∧ attemptFlag b x y
        = ({ b.modify y x (fun s => { s with state := State.Hidden, text := "-" }) with
              flags := b.flags + 1 }, MoveReturnState.Hidden))
    ∨ attemptFlag b x y = (b, MoveReturnState.BadMove) := by
  unfold attemptFlag
  split
  · rename_i h
    exact Or.inl ⟨h.1, h.2, rfl⟩
  · split
    · rename_i h
      exact Or.inr (Or.inl ⟨h, rfl⟩)
    · exact Or.inr (Or.inr rfl)

/-- After `attemptFlag` a cell is as before, or it is the target cell, it was not
`Revealed`, and now is `Flagged` with text `"F"` or `Hidden` with text `"-"`. -/
theorem attemptFlag_cell (b : Board) (x y r c : Int) :
    (attemptFlag b x y).1.board r c = b.board r c
    ∨ ((b.board r c).state ≠ State.Revealed
      ∧ ((attemptFlag b x y).1.board r c
            = { mine := (b.board r c).mine, text := "F", state := State.Flagged }
        ∨ (attemptFlag b x y).1.board r c
            = { mine := (b.board r c).mine, text := "-", state := State.Hidden })) := by
  rcases attemptFlag_cases b x y with ⟨hs, _, e⟩ | ⟨hs, e⟩ | e
  · rw [e]
    show (b.modify y x (fun s => { s with state := State.Flagged, text := "F" })).board r c
        = b.board r c ∨ _
    rw [modify_board]
    by_cases hrc : r = y ∧ c = x
    · rw [if_pos hrc]
      right
      rw [hrc.1, hrc.2, hs]
      exact ⟨by simp, Or.inl rfl⟩
    · rw [if_neg hrc]; exact Or.inl rfl
  · rw [e]
    show (b.modify y x (fun s => { s with state := State.Hidden, text := "-" })).board r c
        = b.board r c ∨ _
    rw [modify_board]
    by_cases hrc : r = y ∧ c = x
    · rw [if_pos hrc]
      right
      rw [hrc.1, hrc.2, hs]
      exact ⟨by simp, Or.inr rfl⟩
    · rw [if_neg hrc]; exact Or.inl rfl
  · rw [e]; exact Or.inl rfl

theorem attemptFlag_width (b : Board) (x y : Int) : (attemptFlag b x y).1.width = b.width := by
  rcases attemptFlag_cases b x y with ⟨_, _, e⟩ | ⟨_, e⟩ | e <;> rw [e] <;> rfl

theorem attemptFlag_height (b : Board) (x y : Int) :
    (attemptFlag b x y).1.height = b.height := by
  rcases attemptFlag_cases b x y with ⟨_, _, e⟩ | ⟨_, e⟩ | e <;> rw [e] <;> rfl

/-- The three outcomes of `attemptReveal`. -/
theorem attemptReveal_cases (b : Board) (x y : Int) :
    ((b.board y x).state = State.Revealed ∧ attemptReveal b x y = (b, MoveReturnState.BadMove))
    ∨ ((b.board y x).state ≠ State.Revealed ∧ (b.board y x).mine = true
      ∧ ∃ f : Int, attemptReveal b x y
          = (({ b with flags := f } : Board).modify y x
              (fun s => { s with state := State.Revealed }), MoveReturnState.Mine))
    ∨ ((b.board y x).state ≠ State.Revealed ∧ (b.board y x).mine = false
      ∧ (attemptReveal b x y).2 = MoveReturnState.Empty
      ∧ ∃ f : Int, Cascade { b with flags := f } [(x, y)] (attemptReveal b x y).1) := by
  by_cases hs : (b.board y x).state = State.Revealed
  · left
    refine ⟨hs, ?_⟩
    unfold attemptReveal
    rw [hs]
  · right
    cases hm : (b.board y x).mine with
    | true =>
      left
      refine ⟨hs, rfl, ?_⟩
      have key : ∀ f : Int, attemptRevealHidden { b with flags := f } x y
          = (({ b with flags := f } : Board).modify y x
              (fun s => { s with state := State.Revealed }), MoveReturnState.Mine) :=
        fun f => attemptRevealHidden_mine _ x y hm
      unfold attemptReveal
      split
      · exact ⟨b.flags - 1, key _⟩
      · exact ⟨b.flags, key b.flags⟩
      · rename_i h
        exact absurd h hs
    | false =>
      right
      obtain ⟨h1, h2⟩ := attemptReveal_cascade b x y hm hs
      exact ⟨hs, rfl, h1, h2⟩

theorem attemptReveal_width (b : Board) (x y : Int) :
    (attemptReveal b x y).1.width = b.width := by
  rcases attemptReveal_cases b x y with ⟨_, e⟩ | ⟨_, _, f, e⟩ | ⟨_, _, _, f, hc⟩
  · rw [e]
  · rw [e]; rfl
  · exact hc.width_eq

theorem attemptReveal_height (b : Board) (x y : Int) :
    (attemptReveal b x y).1.height = b.height := by
  rcases attemptReveal_cases b x y with ⟨_, e⟩ | ⟨_, _, f, e⟩ | ⟨_, _, _, f, hc⟩
  · rw [e]
  · rw [e]; rfl
  · exact hc.height_eq

/-- After `attemptReveal` a cell is as before, or it is a mine that was just revealed (and
the call returned `Mine`), or it was an unrevealed grid cell that is no mine and now is
`Revealed` with its count as text. -/
theorem attemptReveal_cell (b : Board) (x y r c : Int) :
    (attemptReveal b x y).1.board r c = b.board r c
    ∨ ((attemptReveal b x y).2 = MoveReturnState.Mine ∧ (b.board r c).mine = true
      ∧ (b.board r c).state ≠ State.Revealed
      ∧ (attemptReveal b x y).1.board r c = { b.board r c with state := State.Revealed })
    ∨ (isValidSpace b c r = true ∧ (b.board r c).mine = false
      ∧ (b.board r c).state ≠ State.Revealed
      ∧ (attemptReveal b x y).1.board r c
          = { mine := false, text := countText (countAdjacentMines b c r),
              state := State.Revealed }) := by
  rcases attemptReveal_cases b x y with ⟨_, e⟩ | ⟨hs, hm, f, e⟩ | ⟨_, _, _, f, hc⟩
  · rw [e]; exact Or.inl rfl
  · rw [e]
    show (({ b with flags := f } : Board).modify y x
        (fun s => { s with state := State.Revealed })).board r c = b.board r c ∨ _
    rw [modify_board]
    by_cases hrc : r = y ∧ c = x
    · rw [if_pos hrc, hrc.1, hrc.2]
      exact Or.inr (Or.inl ⟨rfl, hm, hs, rfl⟩)
    · rw [if_neg hrc]; exact Or.inl rfl
  · rcases hc.cell r c with e | ⟨hv, hm, hs, e, _⟩
    · exact Or.inl e
    · exact Or.inr (Or.inr ⟨hv, hm, hs, e⟩)

/-! ## The texts on reachable boards -/

/-- The text invariant survives a change that keeps dimensions and mine bits and writes
only cells that carry the right text. -/
theorem LabelInv.of_cells {b b' : Board} (h : LabelInv b) (hw : b'.width = b.width)
    (hh : b'.height = b.height)
    (hm : ∀ r c : Int, (b'.board r c).mine = (b.board r c).mine)
    (hcell : ∀ r c : Int, b'.board r c = b.board r c
      ∨ (((b'.board r c).state = State.Flagged → (b'.board r c).text = "F")
        ∧ ((b'.board r c).state = State.Revealed → (b'.board r c).mine = false →
            (b'.board r c).text = countText (countAdjacentMines b c r)))) :
    LabelInv b' := by
  constructor
  · intro r c hs
    rcases hcell r c with e | ⟨h1, _⟩
    · rw [e] at hs ⊢; exact h.flagged_text r c hs
    · exact h1 hs
  · intro r c hv hs hmine
    rw [countAdjacentMines_congr hw hh hm]
    rw [isValidSpace_congr hw hh] at hv
    rcases hcell r c with e | ⟨_, h2⟩
    · rw [e] at hs hmine ⊢; exact h.revealed_text r c hv hs hmine
    · exact h2 hs hmine

theorem LabelInv.label_flag {b : Board} (h : LabelInv b) (x y : Int) :
    LabelInv (attemptFlag b x y).1 := by
  apply h.of_cells (attemptFlag_width b x y) (attemptFlag_height b x y)
    (attemptFlag_mine_eq b x y)
  intro r c
  rcases attemptFlag_cell b x y r c with e | ⟨_, e | e⟩
  · exact Or.inl e
  · right; rw [e]; exact ⟨fun _ => rfl, fun hs => absurd hs (by simp)⟩
  · right; rw [e]; exact ⟨fun hs => absurd hs (by simp), fun hs => absurd hs (by simp)⟩

theorem LabelInv.label_reveal {b : Board} (h : LabelInv b) (x y : Int) :
    LabelInv (attemptReveal b x y).1 := by
  apply h.of_cells (attemptReveal_width b x y) (attemptReveal_height b x y)
    (attemptReveal_mine_eq b x y)
  intro r c
  rcases attemptReveal_cell b x y r c with e | ⟨_, hm, _, e⟩ | ⟨_, _, _, e⟩
  · exact Or.inl e
  · right
    rw [e]
    refine ⟨fun hs => absurd hs (by simp), fun _ hmine => ?_⟩
    have hmine : (b.board r c).mine = false := hmine
    rw [hm] at hmine
    exact absurd hmine (by simp)
  · right; rw [e]; exact ⟨fun hs => absurd hs (by simp), fun _ _ => rfl⟩

theorem LabelInv.label_reset {b b' : Board} (h : LabelInv b) (samples : List (Int × Int))
    (hsq : b.width = b.height) (hs : validSamples b samples)
    (hr : resetBoard b samples = some b') : LabelInv b' := by
  obtain ⟨hw, hh, _, _, hin, hout, _⟩ := resetBoard_spec b b' samples hsq hs hr
  constructor
  · intro r c hst
    by_cases hv : isValidSpace b c r = true
    · rw [(hin c r hv).1] at hst; exact absurd hst (by simp)
    · have hv : isValidSpace b c r = false := by simpa using hv
      obtain ⟨e1, e2⟩ := hout r c hv
      rw [e2]
      rw [e1] at hst
      exact h.flagged_text r c hst
  · intro r c hv hst _
    rw [isValidSpace_congr hw hh] at hv
    rw [(hin c r hv).1] at hst
    exact absurd hst (by simp)

theorem LabelInv.label_blank (N : Nat) : LabelInv (Board.blank N) :=
  ⟨fun _ _ hs => absurd hs (by simp [Board.blank, Space.new, Space.reset]),
    fun _ _ _ hs => absurd hs (by simp [Board.blank, Space.new, Space.reset])⟩

/-- Every reachable board satisfies the text invariant. -/
theorem reachable_label {N : Nat} {b : Board} (h : Reachable N b) : LabelInv b := by
  induction h with
  | construct samples b hs hb => exact (LabelInv.label_blank N).label_reset samples rfl hs hb
  | flag b x y _ _ ih => exact ih.label_flag x y
  | reveal b x y _ _ ih => exact ih.label_reveal x y
  | reset b samples b' hb hs hr ih =>
    have hinv := reachable_inv hb
    exact ih.label_reset samples (hinv.width_eq.trans hinv.height_eq.symm) hs hr

theorem exMinesShown2_reachable : Reachable 2 exMinesShown2 :=
  Reachable.reveal _ 1 1
    (Reachable.flag _ 1 1 (Reachable.reveal exNew2 0 0 exNew2_reachable rfl) rfl) rfl

/-! ## Rounds without a revealed mine -/

theorem inRound_reachable {N : Nat} {b : Board} (h : InRound N b) : Reachable N b := by
  induction h with
  | construct samples b hs hb => exact Reachable.construct samples b hs hb
  | reset b samples b' hb hs hr => exact Reachable.reset b samples b' hb hs hr
  | flag b x y _ hv ih => exact Reachable.flag b x y ih hv
  | reveal b x y _ hv _ ih => exact Reachable.reveal b x y ih hv

theorem mineCount_congr {b b' : Board} (hw : b'.width = b.width) (hh : b'.height = b.height)
    (hm : ∀ r c : Int, (b'.board r c).mine = (b.board r c).mine) :
    mineCount b' = mineCount b := by
  unfold mineCount
  rw [countCells_eq_countGrid, countCells_eq_countGrid, hw, hh]
  apply countGrid_congr
  intro r c _ _ _ _
  exact hm r c

/-- A round starts with `N` mines, all cells `Hidden`. -/
theorem RoundInv.start {N : Nat} {b b' : Board} (samples : List (Int × Int))
    (hw : b.width = N) (hh : b.height = N) (hm : b.mines = N)
    (hs : validSamples b samples) (hr : resetBoard b samples = some b') : RoundInv N b' := by
  obtain ⟨hw', hh', _, _, hin, _, hcount⟩ :=
    resetBoard_spec b b' samples (hw.trans hh.symm) hs hr
  have hvalid : ∀ x y : Int, isValidSpace b' x y = isValidSpace b x y :=
    isValidSpace_congr hw' hh'
  refine ⟨?_, ?_, ?_⟩
  · have := hcount (by rw [hm]; exact Int.natCast_nonneg N)
    rw [hm] at this
    exact_mod_cast this
  · intro x y hv _
    rw [hvalid] at hv
    rw [(hin x y hv).1]
    simp
  · have hz : flaggedCount b' = 0 :=
      flaggedCount_eq_zero b' (fun x y hv => (hin x y (by rw [← hvalid]; exact hv)).1)
    omega

theorem RoundInv.round_flag {N : Nat} {b : Board} (h : RoundInv N b) (hg : GameInv N b)
    (x y : Int) (hv : isValidSpace b x y = true) : RoundInv N (attemptFlag b x y).1 := by
  refine ⟨?_, ?_, ?_⟩
  · rw [mineCount_congr (attemptFlag_width b x y) (attemptFlag_height b x y)
      (attemptFlag_mine_eq b x y)]
    exact h.mine_count
  · intro u v hvu hm
    rw [isValidSpace_congr (attemptFlag_width b x y) (attemptFlag_height b x y)] at hvu
    rw [attemptFlag_mine_eq] at hm
    rcases attemptFlag_cell b x y v u with e | ⟨_, e | e⟩
    · rw [e]; exact h.mines_unrevealed u v hvu hm
    · rw [e]; simp
    · rw [e]; simp
  · have hb := hg.budget
    have hle := h.flagged_le
    rcases attemptFlag_cases b x y with ⟨hs, hf, e⟩ | ⟨hs, e⟩ | e
    · rw [e]
      show flaggedCount (b.modify y x (fun s => { s with state := State.Flagged, text := "F" }))
        ≤ N
      have := flaggedCount_modify b x y
        (fun s => { s with state := State.Flagged, text := "F" }) hv
      simp only [hs, reduceCtorEq, if_false, if_true] at this
      omega
    · rw [e]
      show flaggedCount (b.modify y x (fun s => { s with state := State.Hidden, text := "-" }))
        ≤ N
      have := flaggedCount_modify b x y
        (fun s => { s with state := State.Hidden, text := "-" }) hv
      simp only [hs, reduceCtorEq, if_false, if_true] at this
      omega
    · rw [e]; exact hle

theorem RoundInv.round_reveal {N : Nat} {b : Board} (h : RoundInv N b) (x y : Int)
    (hne : (attemptReveal b x y).2 ≠ MoveReturnState.Mine) :
    RoundInv N (attemptReveal b x y).1 := by
  refine ⟨?_, ?_, ?_⟩
  · rw [mineCount_congr (attemptReveal_width b x y) (attemptReveal_height b x y)
      (attemptReveal_mine_eq b x y)]
    exact h.mine_count
  · intro u v hvu hm
    rw [isValidSpace_congr (attemptReveal_width b x y) (attemptReveal_height b x y)] at hvu
    rcases attemptReveal_cell b x y v u with e | ⟨hmine, _⟩ | ⟨_, _, _, e⟩
    · rw [e] at hm ⊢; exact h.mines_unrevealed u v hvu hm
    · exact absurd hmine hne
    · rw [e] at hm; exact absurd hm (by simp)
  · refine le_trans ?_ h.flagged_le
    apply countCells_mono _ b _ (attemptReveal_width b x y) (attemptReveal_height b x y)
    intro r c _ hp
    rcases attemptReveal_cell b x y r c with e | ⟨_, _, _, e⟩ | ⟨_, _, _, e⟩
    · rw [← e]; exact hp
    · rw [e] at hp; simp at hp
    · rw [e] at hp; simp at hp

/-- Every board of a round satisfies the round invariants. -/
theorem inRound_inv {N : Nat} {b : Board} (h : InRound N b) : RoundInv N b := by
  induction h with
  | construct samples b hs hb => exact RoundInv.start samples rfl rfl rfl hs hb
  | reset b samples b' hb hs hr =>
    have hg := reachable_inv hb
    exact RoundInv.start samples hg.width_eq hg.height_eq hg.mines_eq hs hr
  | flag b x y hb hv ih => exact ih.round_flag (reachable_inv (inRound_reachable hb)) x y hv
  | reveal b x y _ _ hne ih => exact ih.round_reveal x y hne

/-- On a square board `winCheck` is `true` exactly when no grid cell is `Hidden`. -/
theorem winCheck_square (b : Board) (hsq : b.width = b.height) :
    winCheck b = true
      ↔ ∀ x y : Int, isValidSpace b x y = true →
          ((b.board y x).state = State.Revealed ∨ (b.board y x).state = State.Flagged) := by
  rw [winCheck_eq_true]
  constructor
  · intro h x y hv
    rw [isValidSpace_iff] at hv
    have := h y.toNat x.toNat (by omega) (by omega)
    rw [Int.toNat_of_nonneg hv.2.2.1, Int.toNat_of_nonneg hv.1] at this
    exact this
  · intro h i j hi hj
    exact h j i (by rw [isValidSpace_iff]; omega)

/-- When as many cells are mines as there may be flags and every mine is flagged, no cell
that is no mine is flagged. -/
theorem flags_on_mines_only (b : Board) (hle : flaggedCount b ≤ mineCount b)
    (hall : ∀ x y : Int, isValidSpace b x y = true → (b.board y x).mine = true →
      (b.board y x).state = State.Flagged)
    (x y : Int) (hv : isValidSpace b x y = true) (hm : (b.board y x).mine = false) :
    (b.board y x).state ≠ State.Flagged := by
  have hsplit : flaggedCount b
      = countGrid b.width b.height (fun r c => (b.board r c).mine)
        + countGrid b.width b.height
            (fun r c => decide ((b.board r c).state = State.Flagged) && !(b.board r c).mine) := by
    unfold flaggedCount
    rw [countCells_eq_countGrid]
    apply countGrid_add
    intro r c hr0 hr hc0 hc
    have hvrc : isValidSpace b c r = true := by rw [isValidSpace_iff]; omega
    have := hall c r hvrc
    cases hmine : (b.board r c).mine with
    | true => simp [this hmine]
    | false => simp
  have hmc : mineCount b = countGrid b.width b.height (fun r c => (b.board r c).mine) := rfl
  have hz : countGrid b.width b.height
      (fun r c => decide ((b.board r c).state = State.Flagged) && !(b.board r c).mine) = 0 := by
    omega
  rw [isValidSpace_iff] at hv
  have := countGrid_eq_zero _ _ _ hz y x (by omega) (by omega) (by omega) (by omega)
  intro hs
  simp [hs, hm] at this

theorem exCleared2_inRound : InRound 2 exCleared2 :=
  InRound.reveal _ 0 1
    (InRound.reveal _ 1 0
      (InRound.flag _ 1 1
        (InRound.flag exNew2 0 0
          (InRound.construct [(0, 0), (0, 0), (1, 1)] exNew2 (validSamples_of_all _ _ rfl) rfl)
          rfl)
        rfl)
      rfl (by decide))
    rfl (by decide)

/-! ## The claims -/

/-- C1: on a board of size `N`, whatever it held before, every run of `resetBoard`
whose placement loop finishes (samples on the grid) leaves exactly `N` mines on the
grid, and every grid cell `Hidden` with text `"-"`. -/
theorem resetBoard_places_exactly_N (N : Nat) (b b' : Board) (samples : List (Int × Int))
    (hw : b.width = N) (hh : b.height = N) (hm : b.mines = N)
    (hs : validSamples b samples) (hr : resetBoard b samples = some b') :
    b'.width = N ∧ b'.height = N ∧ mineCount b' = N
    ∧ ∀ x y : Int, isValidSpace b' x y = true →
        (b'.board y x).state = State.Hidden ∧ (b'.board y x).text = "-" := by
  obtain ⟨hw', hh', _, _, hin, _, hcount⟩ :=
    resetBoard_spec b b' samples (hw.trans hh.symm) hs hr
  refine ⟨hw'.trans hw, hh'.trans hh, ?_, ?_⟩
  · have := hcount (by rw [hm]; exact Int.natCast_nonneg N)
    rw [hm] at this
    exact_mod_cast this
  · intro x y hv
    rw [isValidSpace_congr hw' hh'] at hv
    exact hin x y hv

/-- C1 at the 2×2 board `exFlagged2`, which holds two mines and a flag before the call. -/
theorem resetBoard_places_exactly_N_witness :
    exFlagged2.width = 2 ∧ exFlagged2.height = 2 ∧ exFlagged2.mines = ((2 : Nat) : Int)
    ∧ validSamples exFlagged2 [(1, 0), (1, 0), (0, 1)]
    ∧ resetBoard exFlagged2 [(1, 0), (1, 0), (0, 1)] = some exReset2
    ∧ (exReset2.width = 2 ∧ exReset2.height = 2 ∧ mineCount exReset2 = 2
      ∧ ∀ x y : Int, isValidSpace exReset2 x y = true →
          (exReset2.board y x).state = State.Hidden ∧ (exReset2.board y x).text = "-") :=
  ⟨rfl, rfl, rfl, validSamples_of_all _ _ rfl, rfl,
    resetBoard_places_exactly_N 2 exFlagged2 exReset2 [(1, 0), (1, 0), (0, 1)] rfl rfl rfl
      (validSamples_of_all _ _ rfl) rfl⟩

/-- C2, the code at a failing input: the reachable 2×2 board `exFlagged2` has one flag
placed and `flags = 1`; `resetBoard` returns `exReset2`, on which no cell is flagged
and `flags` is still `1`, not the mine count `2`. -/
theorem resetBoard_keeps_flags_example :
    Reachable 2 exFlagged2 ∧ exFlagged2.flags = 1
    ∧ resetBoard exFlagged2 [(1, 0), (1, 0), (0, 1)] = some exReset2
    ∧ exReset2.flags = 1 ∧ exReset2.mines = 2 ∧ flaggedCount exReset2 = 0 :=
  ⟨exFlagged2_reachable, rfl, rfl, rfl, rfl, by decide⟩

/-- C3, the code at a failing input: on the reachable board `exFlagged2` the cell
`(1,0)` is on the grid, `Flagged` and no mine; `attemptReveal(1,0)` returns `Empty` and
reveals the cell, and takes `flags` from `1` down to `0` instead of up to `2`. -/
theorem attemptReveal_flagged_example :
    Reachable 2 exFlagged2 ∧ isValidSpace exFlagged2 1 0 = true
    ∧ (exFlagged2.board 0 1).state = State.Flagged ∧ (exFlagged2.board 0 1).mine = false
    ∧ exFlagged2.flags = 1
    ∧ (attemptReveal exFlagged2 1 0).2 = MoveReturnState.Empty
    ∧ (attemptReveal exFlagged2 1 0).1.flags = 0
    ∧ ((attemptReveal exFlagged2 1 0).1.board 0 1).state = State.Revealed :=
  ⟨exFlagged2_reachable, rfl, rfl, rfl, rfl, by decide, by decide, by decide⟩

/-- C4, the code at a failing input: after flagging `(1,0)` and `(0,1)` on a constructed
2×2 board and revealing the flagged cell `(1,0)`, the flag counter is `-1`. -/
theorem flags_negative_example :
    Reachable 2 exOverdrawn2 ∧ exOverdrawn2.flags = -1 :=
  ⟨Reachable.reveal exBothFlagged2 1 0 exBothFlagged2_reachable rfl, by decide⟩

/-- C5: on every reachable board of size `N` the flag counter plus the number of
`Flagged` cells is at most `N`; in particular the flag counter never exceeds `N`. -/
theorem flags_le_size (N : Nat) (b : Board) (h : Reachable N b) :
    b.flags ≤ N ∧ b.flags + flaggedCount b ≤ N := by
  have hb := (reachable_inv h).budget
  constructor
  · omega
  · exact hb

/-- C5 at the 2×2 board `exFlagged2`. -/
theorem flags_le_size_witness :
    Reachable 2 exFlagged2
    ∧ (exFlagged2.flags ≤ ((2 : Nat) : Int)
      ∧ exFlagged2.flags + flaggedCount exFlagged2 ≤ ((2 : Nat) : Int)) :=
  ⟨exFlagged2_reachable, flags_le_size 2 exFlagged2 exFlagged2_reachable⟩

/-- C6: on a reachable board, `attemptReveal` at an unrevealed grid cell `(x,y)` that is
no mine and has count 0 leaves (a) every cell of the 8-connected region of count-0 cells
containing `(x,y)` `Revealed`, (b) every grid cell that is an 8-neighbour of a cell of
that region `Revealed`, and (c) changes only cells that lie in that region or are an
8-neighbour of one of its cells. -/
theorem attemptReveal_flood_fill (N : Nat) (b : Board) (x y : Int) (hr : Reachable N b)
    (hv : isValidSpace b x y = true) (hm : (b.board y x).mine = false)
    (hs : (b.board y x).state ≠ State.Revealed) (hz : countAdjacentMines b x y = 0) :
    (∀ u v : Int, zeroRegion b x y u v →
      ((attemptReveal b x y).1.board v u).state = State.Revealed)
    ∧ (∀ u v u' v' : Int, zeroRegion b x y u v → adjacent u v u' v' →
        isValidSpace b u' v' = true →
        ((attemptReveal b x y).1.board v' u').state = State.Revealed)
    ∧ (∀ u v : Int, (attemptReveal b x y).1.board v u ≠ b.board v u →
        zeroRegion b x y u v
          ∨ ∃ u0 v0 : Int, zeroRegion b x y u0 v0 ∧ adjacent u0 v0 u v) := by
  obtain ⟨_, f, hc⟩ := attemptReveal_cascade b x y hm hs
  have hclosed : cascadeClosed (attemptReveal b x y).1 := hc.closed (reachable_inv hr).closed
  have hvalid : ∀ u v : Int, isValidSpace (attemptReveal b x y).1 u v = isValidSpace b u v :=
    hc.valid_eq
  have hcount : ∀ u v : Int,
      countAdjacentMines (attemptReveal b x y).1 u v = countAdjacentMines b u v :=
    hc.count_eq
  have key : ∀ p : Int × Int, Relation.ReflTransGen (zeroStep b) (x, y) p →
      isValidSpace b p.1 p.2 = true ∧ countAdjacentMines b p.1 p.2 = 0
        ∧ ((attemptReveal b x y).1.board p.2 p.1).state = State.Revealed := by
    intro p hp
    induction hp with
    | refl => exact ⟨hv, hz, hc.target (x, y) (List.mem_singleton.mpr rfl) hv hm⟩
    | @tail p' q' _ hstep ih =>
      obtain ⟨hvp, hzp, hrp⟩ := ih
      obtain ⟨hadj, hvq, hzq⟩ := hstep
      refine ⟨hvq, hzq, ?_⟩
      exact hclosed p'.1 p'.2 (by rw [hvalid]; exact hvp) hrp (by rw [hcount]; exact hzp)
        q'.1 q'.2 hadj.1 (by rw [hvalid]; exact hvq)
  refine ⟨fun u v h => (key (u, v) h).2.2, ?_, ?_⟩
  · intro u v u' v' hreg hadj hv'
    obtain ⟨hvp, hzp, hrp⟩ := key (u, v) hreg
    exact hclosed u v (by rw [hvalid]; exact hvp) hrp (by rw [hcount]; exact hzp)
      u' v' hadj.1 (by rw [hvalid]; exact hv')
  · intro u v hne
    rcases hc.cell v u with e | ⟨_, _, _, _, s, hsm, hpath⟩
    · exact absurd e hne
    · cases List.mem_singleton.mp hsm
      obtain ⟨p, hreg, hnear⟩ := cascade_within_region b x y (u, v) hpath
      by_cases he : u = p.1 ∧ v = p.2
      · left
        rw [he.1, he.2]; exact hreg
      · right
        exact ⟨p.1, p.2, hreg, hnear, he⟩

/-- C6 at the cell `(3,0)` of the constructed 4×4 board `exNew4`, whose mines fill the
2×2 block at the origin. -/
theorem attemptReveal_flood_fill_witness :
    Reachable 4 exNew4 ∧ isValidSpace exNew4 3 0 = true ∧ (exNew4.board 0 3).mine = false
    ∧ (exNew4.board 0 3).state ≠ State.Revealed ∧ countAdjacentMines exNew4 3 0 = 0
    ∧ ((∀ u v : Int, zeroRegion exNew4 3 0 u v →
        ((attemptReveal exNew4 3 0).1.board v u).state = State.Revealed)
      ∧ (∀ u v u' v' : Int, zeroRegion exNew4 3 0 u v → adjacent u v u' v' →
          isValidSpace exNew4 u' v' = true →
          ((attemptReveal exNew4 3 0).1.board v' u').state = State.Revealed)
      ∧ (∀ u v : Int, (attemptReveal exNew4 3 0).1.board v u ≠ exNew4.board v u →
          zeroRegion exNew4 3 0 u v
            ∨ ∃ u0 v0 : Int, zeroRegion exNew4 3 0 u0 v0 ∧ adjacent u0 v0 u v)) :=
  ⟨exNew4_reachable, rfl, rfl, by decide, by decide,
    attemptReveal_flood_fill 4 exNew4 3 0 exNew4_reachable rfl rfl (by decide) (by decide)⟩

/-- C7: `attemptReveal` on a `Revealed` grid cell returns `BadMove` and the board it
leaves is the board it was given (cells and flag counter alike). -/
theorem attemptReveal_revealed (b : Board) (x y : Int) (_hv : isValidSpace b x y = true)
    (hs : (b.board y x).state = State.Revealed) :
    (attemptReveal b x y).2 = MoveReturnState.BadMove ∧ (attemptReveal b x y).1 = b := by
  unfold attemptReveal
  rw [hs]
  exact ⟨rfl, rfl⟩

/-- C7 at the cell `(3,0)` of the 4×4 board `exRevealed4`. -/
theorem attemptReveal_revealed_witness :
    isValidSpace exRevealed4 3 0 = true ∧ (exRevealed4.board 0 3).state = State.Revealed
    ∧ ((attemptReveal exRevealed4 3 0).2 = MoveReturnState.BadMove
      ∧ (attemptReveal exRevealed4 3 0).1 = exRevealed4) :=
  ⟨rfl, by decide, attemptReveal_revealed exRevealed4 3 0 rfl (by decide)⟩

/-- C8: on a reachable board, at a `Hidden` grid cell with `flags > 0`, `attemptFlag`
returns `Flagged`, a second `attemptFlag` at the same cell returns `Hidden`, and the
board after the two calls is the board before the first (cells and flag counter). -/
theorem attemptFlag_round_trip (N : Nat) (b : Board) (x y : Int) (hr : Reachable N b)
    (_hv : isValidSpace b x y = true) (hs : (b.board y x).state = State.Hidden)
    (hf : b.flags > 0) :
    (attemptFlag b x y).2 = MoveReturnState.Flagged
    ∧ (attemptFlag (attemptFlag b x y).1 x y).2 = MoveReturnState.Hidden
    ∧ (attemptFlag (attemptFlag b x y).1 x y).1 = b := by
  have ht : (b.board y x).text = "-" := (reachable_inv hr).hidden_text y x hs
  have h1 : attemptFlag b x y
      = ({ b.modify y x (fun s => { s with state := State.Flagged, text := "F" }) with
            flags := b.flags - 1 },
          MoveReturnState.Flagged) := by
    unfold attemptFlag
    rw [if_pos ⟨hs, hf⟩]
  have hst : (({ b.modify y x (fun s => { s with state := State.Flagged, text := "F" }) with
      flags := b.flags - 1 } : Board).board y x).state = State.Flagged := by
    show ((b.modify y x (fun s => { s with state := State.Flagged, text := "F" })).board y x).state
      = State.Flagged
    rw [modify_board, if_pos ⟨rfl, rfl⟩]
  have h2 : attemptFlag ({ b.modify y x (fun s => { s with state := State.Flagged, text := "F" })
        with flags := b.flags - 1 } : Board) x y
      = ({ (({ b.modify y x (fun s => { s with state := State.Flagged, text := "F" }) with
              flags := b.flags - 1 } : Board).modify y x
              (fun s => { s with state := State.Hidden, text := "-" })) with
            flags := b.flags - 1 + 1 },
          MoveReturnState.Hidden) := by
    unfold attemptFlag
    rw [if_neg (by rw [hst]; simp), if_pos hst]
  rw [h1, h2]
  refine ⟨rfl, rfl, ?_⟩
  obtain ⟨w, h, f, m, g⟩ := b
  simp only [Board.modify, Board.mk.injEq, true_and]
  refine ⟨by omega, ?_⟩
  funext r c
  by_cases hrc : r = y ∧ c = x
  · obtain ⟨rfl, rfl⟩ := hrc
    simp only [and_self, if_true]
    have hs : (g r c).state = State.Hidden := hs
    have ht : (g r c).text = "-" := ht
    rw [← hs, ← ht]
  · simp only [if_neg hrc]

/-- C8 at the `Hidden` cell `(0,1)` of the reachable board `exFlagged2`, where `flags = 1`. -/
theorem attemptFlag_round_trip_witness :
    Reachable 2 exFlagged2 ∧ isValidSpace exFlagged2 0 1 = true
    ∧ (exFlagged2.board 1 0).state = State.Hidden ∧ exFlagged2.flags > 0
    ∧ ((attemptFlag exFlagged2 0 1).2 = MoveReturnState.Flagged
      ∧ (attemptFlag (attemptFlag exFlagged2 0 1).1 0 1).2 = MoveReturnState.Hidden
      ∧ (attemptFlag (attemptFlag exFlagged2 0 1).1 0 1).1 = exFlagged2) :=
  ⟨exFlagged2_reachable, rfl, rfl, by decide,
    attemptFlag_round_trip 2 exFlagged2 0 1 exFlagged2_reachable rfl rfl (by decide)⟩

/-- C9: at a grid cell `attemptFlag` returns `BadMove` exactly when the cell is
`Revealed`, or `Hidden` with `flags ≤ 0`; and when it returns `BadMove` the board it
leaves is the board it was given. -/
theorem attemptFlag_badMove_iff (b : Board) (x y : Int) (_hv : isValidSpace b x y = true) :
    ((attemptFlag b x y).2 = MoveReturnState.BadMove
      ↔ ((b.board y x).state = State.Revealed
        ∨ ((b.board y x).state = State.Hidden ∧ b.flags ≤ 0)))
    ∧ ((attemptFlag b x y).2 = MoveReturnState.BadMove → (attemptFlag b x y).1 = b) := by
  unfold attemptFlag
  split
  · rename_i h1
    refine ⟨⟨fun h => absurd h (by simp), ?_⟩, fun h => absurd h (by simp)⟩
    rintro (h | ⟨_, h⟩)
    · rw [h1.1] at h; exact absurd h (by simp)
    · omega
  · rename_i h1
    split
    · rename_i h2
      refine ⟨⟨fun h => absurd h (by simp), ?_⟩, fun h => absurd h (by simp)⟩
      rintro (h | ⟨h, _⟩)
      · rw [h2] at h; exact absurd h (by simp)
      · rw [h2] at h; exact absurd h (by simp)
    · rename_i h2
      refine ⟨⟨fun _ => ?_, fun _ => rfl⟩, fun _ => rfl⟩
      cases hst : (b.board y x).state with
      | Hidden =>
        right
        refine ⟨rfl, ?_⟩
        by_contra hf
        exact h1 ⟨hst, by omega⟩
      | Revealed => exact Or.inl rfl
      | Flagged => exact absurd hst h2

/-- C9 at the cell `(0,0)` of `exBothFlagged2`: `Hidden`, with no flag left. -/
theorem attemptFlag_badMove_iff_witness :
    isValidSpace exBothFlagged2 0 0 = true
    ∧ (((attemptFlag exBothFlagged2 0 0).2 = MoveReturnState.BadMove
        ↔ ((exBothFlagged2.board 0 0).state = State.Revealed
          ∨ ((exBothFlagged2.board 0 0).state = State.Hidden ∧ exBothFlagged2.flags ≤ 0)))
      ∧ ((attemptFlag exBothFlagged2 0 0).2 = MoveReturnState.BadMove
        → (attemptFlag exBothFlagged2 0 0).1 = exBothFlagged2)) :=
  ⟨rfl, attemptFlag_badMove_iff exBothFlagged2 0 0 rfl⟩

/-- C10: on a board whose grid is `N × N`, `winCheck` returns `true` exactly when every
grid cell is `Revealed` or `Flagged`; the mine bits play no part. -/
theorem winCheck_iff (N : Nat) (b : Board) (hw : b.width = N) (hh : b.height = N) :
    winCheck b = true
      ↔ ∀ x y : Int, isValidSpace b x y = true →
          ((b.board y x).state = State.Revealed ∨ (b.board y x).state = State.Flagged) := by
  rw [winCheck_eq_true]
  constructor
  · intro h x y hv
    rw [isValidSpace_iff] at hv
    have := h y.toNat x.toNat (by omega) (by omega)
    rw [Int.toNat_of_nonneg hv.2.2.1, Int.toNat_of_nonneg hv.1] at this
    exact this
  · intro h i j hi hj
    exact h j i (by rw [isValidSpace_iff]; omega)

/-- C10 at the 2×2 board `exWon2`: three cells `Revealed`, the cell `(1,0)` `Flagged`
and no mine, and `winCheck` is `true`. -/
theorem winCheck_iff_witness :
    exWon2.width = 2 ∧ exWon2.height = 2
    ∧ (exWon2.board 0 0).state = State.Revealed ∧ (exWon2.board 1 0).state = State.Revealed
    ∧ (exWon2.board 1 1).state = State.Revealed
    ∧ (exWon2.board 0 1).state = State.Flagged ∧ (exWon2.board 0 1).mine = false
    ∧ winCheck exWon2 = true
    ∧ (winCheck exWon2 = true
      ↔ ∀ x y : Int, isValidSpace exWon2 x y = true →
          ((exWon2.board y x).state = State.Revealed
            ∨ (exWon2.board y x).state = State.Flagged)) :=
  ⟨rfl, rfl, by decide, by decide, by decide, by decide, by decide, by decide,
    winCheck_iff 2 exWon2 rfl rfl⟩

/-- C11: `attemptReveal` at a grid cell that is a mine and is `Hidden` or `Flagged`
returns `Mine`, leaves that cell `Revealed`, and leaves every other cell as it was. -/
theorem attemptReveal_mine (b : Board) (x y : Int) (_hv : isValidSpace b x y = true)
    (hm : (b.board y x).mine = true)
    (hs : (b.board y x).state = State.Hidden ∨ (b.board y x).state = State.Flagged) :
    (attemptReveal b x y).2 = MoveReturnState.Mine
    ∧ ((attemptReveal b x y).1.board y x).state = State.Revealed
    ∧ ∀ r c : Int, ¬ (r = y ∧ c = x) → (attemptReveal b x y).1.board r c = b.board r c := by
  have key : ∀ f : Int, attemptRevealHidden { b with flags := f } x y
      = (({ b with flags := f } : Board).modify y x (fun s => { s with state := State.Revealed }),
          MoveReturnState.Mine) := fun f => attemptRevealHidden_mine _ x y hm
  have hres : ∃ f : Int, attemptReveal b x y
      = (({ b with flags := f } : Board).modify y x (fun s => { s with state := State.Revealed }),
          MoveReturnState.Mine) := by
    unfold attemptReveal
    split
    · exact ⟨b.flags - 1, key _⟩
    · exact ⟨b.flags, key b.flags⟩
    · rename_i h
      rcases hs with hs | hs <;> rw [h] at hs <;> exact absurd hs (by simp)
  obtain ⟨f, hf⟩ := hres
  rw [hf]
  refine ⟨rfl, ?_, ?_⟩
  · show ((({ b with flags := f } : Board).modify y x
      (fun s => { s with state := State.Revealed })).board y x).state = State.Revealed
    rw [modify_board, if_pos ⟨rfl, rfl⟩]
  · intro r c hrc
    show (({ b with flags := f } : Board).modify y x
      (fun s => { s with state := State.Revealed })).board r c = b.board r c
    rw [modify_board, if_neg hrc]

/-- C11 at the `Hidden` mine `(0,0)` of the 2×2 board `exNew2`. -/
theorem attemptReveal_mine_witness :
    isValidSpace exNew2 0 0 = true ∧ (exNew2.board 0 0).mine = true
    ∧ (exNew2.board 0 0).state = State.Hidden
    ∧ ((attemptReveal exNew2 0 0).2 = MoveReturnState.Mine
      ∧ ((attemptReveal exNew2 0 0).1.board 0 0).state = State.Revealed
      ∧ ∀ r c : Int, ¬ (r = 0 ∧ c = 0) →
          (attemptReveal exNew2 0 0).1.board r c = exNew2.board r c) :=
  ⟨rfl, rfl, rfl, attemptReveal_mine exNew2 0 0 rfl rfl (Or.inl rfl)⟩

/-- C12: `attemptReveal` at a `Hidden` grid cell that is no mine and has count `k > 0`
returns `Empty`, leaves that cell `Revealed` with the decimal digit of `k` (at most 8)
as text, and leaves every other cell as it was. -/
theorem attemptReveal_positive_count (b : Board) (x y : Int)
    (hv : isValidSpace b x y = true) (hs : (b.board y x).state = State.Hidden)
    (hm : (b.board y x).mine = false) (hk : countAdjacentMines b x y > 0) :
    (attemptReveal b x y).2 = MoveReturnState.Empty
    ∧ ((attemptReveal b x y).1.board y x).state = State.Revealed
    ∧ countAdjacentMines b x y ≤ 8
    ∧ ((attemptReveal b x y).1.board y x).text = digitText (countAdjacentMines b x y)
    ∧ ∀ r c : Int, ¬ (r = y ∧ c = x) → (attemptReveal b x y).1.board r c = b.board r c := by
  have hle := countAdjacentMines_le_eight b x y hm
  have hres : attemptReveal b x y
      = (revealCell b x y (sprintfD (countAdjacentMines b x y)), MoveReturnState.Empty) := by
    unfold attemptReveal
    rw [hs]
    show attemptRevealHidden b x y = _
    unfold attemptRevealHidden
    rw [hm, revealConnected_pos b x y hv hm (by rw [hs]; simp) hk]
    rfl
  rw [hres]
  refine ⟨rfl, ?_, hle, ?_, ?_⟩
  · show ((revealCell b x y _).board y x).state = State.Revealed
    rw [revealCell_board, if_pos ⟨rfl, rfl⟩]
  · show ((revealCell b x y _).board y x).text = _
    rw [revealCell_board, if_pos ⟨rfl, rfl⟩]
    exact sprintfD_digit _ (by omega) (by omega)
  · intro r c hrc
    show (revealCell b x y _).board r c = b.board r c
    rw [revealCell_board, if_neg hrc]

/-- C12 at the cell `(1,0)` of the 3×3 board `exTwoMines3` with mines at `(0,0)` and
`(2,2)`: the count is 1, the result `Empty`, the text `"1"`. -/
theorem attemptReveal_positive_count_witness :
    isValidSpace exTwoMines3 1 0 = true ∧ (exTwoMines3.board 0 1).state = State.Hidden
    ∧ (exTwoMines3.board 0 1).mine = false ∧ countAdjacentMines exTwoMines3 1 0 = 1
    ∧ ((attemptReveal exTwoMines3 1 0).1.board 0 1).text = "1"
    ∧ ((attemptReveal exTwoMines3 1 0).2 = MoveReturnState.Empty
      ∧ ((attemptReveal exTwoMines3 1 0).1.board 0 1).state = State.Revealed
      ∧ countAdjacentMines exTwoMines3 1 0 ≤ 8
      ∧ ((attemptReveal exTwoMines3 1 0).1.board 0 1).text
          = digitText (countAdjacentMines exTwoMines3 1 0)
      ∧ ∀ r c : Int, ¬ (r = 0 ∧ c = 1) →
          (attemptReveal exTwoMines3 1 0).1.board r c = exTwoMines3.board r c) :=
  ⟨rfl, rfl, rfl, by decide, by decide,
    attemptReveal_positive_count exTwoMines3 1 0 rfl rfl rfl (by decide)⟩

/-- C14, the code at a failing input: on the constructed 9×9 board `exBlock9`, whose
mines fill the 3×3 block at the origin, the cell `(1,1)` is a grid cell and a mine, its 8
neighbours hold 8 mines, and `countAdjacentMines(1,1)` is `9`: the centre is counted. -/
theorem countAdjacentMines_nine_example :
    Reachable 9 exBlock9 ∧ isValidSpace exBlock9 1 1 = true
    ∧ (exBlock9.board 1 1).mine = true ∧ adjacentMines8 exBlock9 1 1 = 8
    ∧ countAdjacentMines exBlock9 1 1 = 9 :=
  ⟨exBlock9_reachable, rfl, rfl, by decide, by decide⟩

/-- C15: on a grid cell that is no mine `countAdjacentMines` is the number of mines among
the grid cells at the 8 surrounding offsets; and in every run of `revealConnected` each
call of `countAdjacentMines` is made on a cell whose mine bit is `false`. -/
theorem countAdjacentMines_on_non_mines (b : Board) (x y : Int) :
    (isValidSpace b x y = true → (b.board y x).mine = false →
      countAdjacentMines b x y = adjacentMines8 b x y)
    ∧ ∃ log : List (Int × Int × Bool),
        revealConnectedLog (b.width * b.height + 1) b x y = some (revealConnected b x y, log)
        ∧ ∀ e ∈ log, e.2.2 = false := by
  constructor
  · intro _ hm
    rw [countAdjacentMines_split]
    simp [hm]
  · have hfst := revealConnectedLog_fst (b.width * b.height + 1) b x y
    rw [revealConnected_eq] at hfst
    cases hlog : revealConnectedLog (b.width * b.height + 1) b x y with
    | none => rw [hlog] at hfst; exact absurd hfst (by simp)
    | some r =>
      rw [hlog] at hfst
      have hr : r.1 = revealConnected b x y := Option.some.inj hfst
      refine ⟨r.2, ?_, revealConnectedLog_calls _ b x y r hlog⟩
      rw [← hr]

/-- C17: `revealConnected` returns for every board and every pair of coordinates: any
depth budget above the number of cells still to reveal (at most `width * height`) gives
its result; a call that passes the guard leaves one cell less to reveal for the calls it
makes; and the cells it reveals are as many as the cells to reveal it removes, at most
`width * height`. -/
theorem revealConnected_terminates (b : Board) (x y : Int) (fuel : Nat)
    (hf : todoCount b < fuel) :
    revealConnectedFuel fuel b x y = some (revealConnected b x y)
    ∧ todoCount b ≤ b.width * b.height
    ∧ (isValidSpace b x y = true → (b.board y x).mine = false →
        (b.board y x).state ≠ State.Revealed →
        ∀ t : String, todoCount (revealCell b x y t) + 1 = todoCount b)
    ∧ todoCount (revealConnected b x y) ≤ todoCount b
    ∧ revealedCount (revealConnected b x y) + todoCount (revealConnected b x y)
        = revealedCount b + todoCount b
    ∧ revealedCount (revealConnected b x y) - revealedCount b ≤ b.width * b.height := by
  have hc := revealConnected_cascade b x y
  have hadd := hc.revealed_add_todo
  have hle := hc.todo_le
  have hN : todoCount b ≤ b.width * b.height := countCells_le _ b
  refine ⟨revealConnectedFuel_eq fuel b x y hf, hN, ?_, hle, hadd, ?_⟩
  · intro hv hm hs t
    exact todoCount_revealCell b x y t hv hm hs
  · omega

/-- C17 at the cell `(3,0)` of the 4×4 board `exNew4`, which has 12 cells to reveal, with
depth budget 13; and at the coordinates `(-1, 7)` off the grid. -/
theorem revealConnected_terminates_witness :
    todoCount exNew4 < 13
    ∧ (revealConnectedFuel 13 exNew4 3 0 = some (revealConnected exNew4 3 0)
      ∧ todoCount exNew4 ≤ exNew4.width * exNew4.height
      ∧ (isValidSpace exNew4 3 0 = true → (exNew4.board 0 3).mine = false →
          (exNew4.board 0 3).state ≠ State.Revealed →
          ∀ t : String, todoCount (revealCell exNew4 3 0 t) + 1 = todoCount exNew4)
      ∧ todoCount (revealConnected exNew4 3 0) ≤ todoCount exNew4
      ∧ revealedCount (revealConnected exNew4 3 0) + todoCount (revealConnected exNew4 3 0)
          = revealedCount exNew4 + todoCount exNew4
      ∧ revealedCount (revealConnected exNew4 3 0) - revealedCount exNew4
          ≤ exNew4.width * exNew4.height)
    ∧ revealConnectedFuel 13 exNew4 (-1) 7 = some (revealConnected exNew4 (-1) 7) :=
  ⟨by decide, revealConnected_terminates exNew4 3 0 13 (by decide),
    (revealConnected_terminates exNew4 (-1) 7 13 (by decide)).1⟩

/-- C18: at grid coordinates `attemptReveal`, `attemptFlag` and `revealConnected` leave the
mine bit of every cell as it was. -/
theorem mine_bits_frame (b : Board) (x y : Int) (_hv : isValidSpace b x y = true) :
    ∀ r c : Int,
      ((attemptReveal b x y).1.board r c).mine = (b.board r c).mine
      ∧ ((attemptFlag b x y).1.board r c).mine = (b.board r c).mine
      ∧ ((revealConnected b x y).board r c).mine = (b.board r c).mine :=
  fun r c => ⟨attemptReveal_mine_eq b x y r c, attemptFlag_mine_eq b x y r c,
    (revealConnected_cascade b x y).mine_eq r c⟩

/-- C18 at the cell `(1,0)` of the board `exFlagged2`; `resetBoard` on the same board does
change a mine bit, the one of `board[0][0]`. -/
theorem mine_bits_frame_witness :
    isValidSpace exFlagged2 1 0 = true
    ∧ (∀ r c : Int,
        ((attemptReveal exFlagged2 1 0).1.board r c).mine = (exFlagged2.board r c).mine
        ∧ ((attemptFlag exFlagged2 1 0).1.board r c).mine = (exFlagged2.board r c).mine
        ∧ ((revealConnected exFlagged2 1 0).board r c).mine = (exFlagged2.board r c).mine)
    ∧ resetBoard exFlagged2 [(1, 0), (1, 0), (0, 1)] = some exReset2
    ∧ (exFlagged2.board 0 0).mine = true ∧ (exReset2.board 0 0).mine = false :=
  ⟨rfl, mine_bits_frame exFlagged2 1 0 rfl, rfl, rfl, rfl⟩

/-- C19: `revealConnected` leaves the flag counter as it was; every cell that is not
`Revealed`, `Flagged` or `Hidden` alike, is either left as it was or made `Revealed` with
its count as text; the start cell, if a grid cell and no mine, ends `Revealed`, and so does
the whole 3×3 block on the grid of every newly revealed cell with count 0; and the number
of `Flagged` cells drops by the number of `Flagged` cells that were revealed. -/
theorem revealConnected_flagged (b : Board) (x y : Int) :
    (revealConnected b x y).flags = b.flags
    ∧ (∀ r c : Int, (b.board r c).state ≠ State.Revealed →
        (revealConnected b x y).board r c = b.board r c
        ∨ (revealConnected b x y).board r c
            = { mine := false, text := countText (countAdjacentMines b c r),
                state := State.Revealed })
    ∧ (isValidSpace b x y = true → (b.board y x).mine = false →
        ((revealConnected b x y).board y x).state = State.Revealed)
    ∧ (∀ u v : Int, isValidSpace b u v = true →
        ((revealConnected b x y).board v u).state = State.Revealed →
        (b.board v u).state ≠ State.Revealed → countAdjacentMines b u v = 0 →
        ∀ u' v' : Int, near u v u' v' → isValidSpace b u' v' = true →
          ((revealConnected b x y).board v' u').state = State.Revealed)
    ∧ flaggedCount (revealConnected b x y) + passedOver b (revealConnected b x y)
        = flaggedCount b := by
  have hc := revealConnected_cascade b x y
  refine ⟨hc.flags_eq, ?_, ?_, hc.closure, hc.flagged_split⟩
  · intro r c _
    rcases hc.cell r c with e | ⟨_, _, _, e, _⟩
    · exact Or.inl e
    · exact Or.inr e
  · intro hv hm
    exact hc.target (x, y) (List.mem_singleton.mpr rfl) hv hm

/-- C19 at the cell `(3,0)` of the reachable board `exFlagged4`, where the cascade passes
over the two flagged cells `(3,3)` and `(2,2)`: both end `Revealed`, two flags leave the
board and `flags` stays `2`. -/
theorem revealConnected_flagged_witness :
    Reachable 4 exFlagged4 ∧ exFlagged4.flags = 2 ∧ flaggedCount exFlagged4 = 2
    ∧ (exFlagged4.board 3 3).state = State.Flagged
    ∧ (exFlagged4.board 2 2).state = State.Flagged
    ∧ ((revealConnected exFlagged4 3 0).board 3 3).state = State.Revealed
    ∧ ((revealConnected exFlagged4 3 0).board 2 2).state = State.Revealed
    ∧ passedOver exFlagged4 (revealConnected exFlagged4 3 0) = 2
    ∧ (revealConnected exFlagged4 3 0).flags = 2
    ∧ flaggedCount (revealConnected exFlagged4 3 0)
        + passedOver exFlagged4 (revealConnected exFlagged4 3 0)
        = flaggedCount exFlagged4 :=
  ⟨exFlagged4_reachable, by decide, by decide, by decide, by decide, by decide, by decide,
    by decide, by decide, (revealConnected_flagged exFlagged4 3 0).2.2.2.2⟩

/-- C15 at the cell `(2,2)` of the 4×4 board `exNew4`, a grid cell that is no mine, with one
mine among its 8 neighbours. -/
theorem countAdjacentMines_on_non_mines_witness :
    isValidSpace exNew4 2 2 = true ∧ (exNew4.board 2 2).mine = false
    ∧ adjacentMines8 exNew4 2 2 = 1
    ∧ countAdjacentMines exNew4 2 2 = adjacentMines8 exNew4 2 2
    ∧ ∃ log : List (Int × Int × Bool),
        revealConnectedLog (exNew4.width * exNew4.height + 1) exNew4 2 2
          = some (revealConnected exNew4 2 2, log)
        ∧ ∀ e ∈ log, e.2.2 = false :=
  ⟨rfl, rfl, by decide, (countAdjacentMines_on_non_mines exNew4 2 2).1 rfl rfl,
    (countAdjacentMines_on_non_mines exNew4 2 2).2⟩

/-- C16, the claim at a failing input: on the reachable 2×2 board `exMinesShown2` the
grid cells `(0,0)` and `(1,1)` are both mines, both `Revealed` and both have count 2 (one
mine among their 8 neighbours), yet their texts are `"-"` and `"F"`. -/
theorem text_not_function_example :
    Reachable 2 exMinesShown2
    ∧ isValidSpace exMinesShown2 0 0 = true ∧ isValidSpace exMinesShown2 1 1 = true
    ∧ (exMinesShown2.board 0 0).mine = (exMinesShown2.board 1 1).mine
    ∧ (exMinesShown2.board 0 0).state = (exMinesShown2.board 1 1).state
    ∧ countAdjacentMines exMinesShown2 0 0 = countAdjacentMines exMinesShown2 1 1
    ∧ adjacentMines8 exMinesShown2 0 0 = adjacentMines8 exMinesShown2 1 1
    ∧ (exMinesShown2.board 0 0).text = "-" ∧ (exMinesShown2.board 1 1).text = "F"
    ∧ (exMinesShown2.board 0 0).text ≠ (exMinesShown2.board 1 1).text :=
  ⟨exMinesShown2_reachable, rfl, rfl, by decide, by decide, by decide, by decide, by decide,
    by decide, by decide⟩

/-- C16 as amended: any two grid cells of reachable boards (the same board or two boards)
that agree on mine bit, state and count, and are not revealed mines, have the same text. -/
theorem text_function_except_revealed_mines (N1 N2 : Nat) (b1 b2 : Board)
    (x1 y1 x2 y2 : Int) (h1 : Reachable N1 b1) (h2 : Reachable N2 b2)
    (hv1 : isValidSpace b1 x1 y1 = true) (hv2 : isValidSpace b2 x2 y2 = true)
    (hmine : (b1.board y1 x1).mine = (b2.board y2 x2).mine)
    (hstate : (b1.board y1 x1).state = (b2.board y2 x2).state)
    (hcount : countAdjacentMines b1 x1 y1 = countAdjacentMines b2 x2 y2)
    (hnot : ¬ ((b1.board y1 x1).mine = true ∧ (b1.board y1 x1).state = State.Revealed)) :
    (b1.board y1 x1).text = (b2.board y2 x2).text := by
  cases hs : (b1.board y1 x1).state with
  | Hidden =>
    rw [(reachable_inv h1).hidden_text y1 x1 hs,
      (reachable_inv h2).hidden_text y2 x2 (hstate ▸ hs)]
  | Flagged =>
    rw [(reachable_label h1).flagged_text y1 x1 hs,
      (reachable_label h2).flagged_text y2 x2 (hstate ▸ hs)]
  | Revealed =>
    have hm1 : (b1.board y1 x1).mine = false := by
      cases hm : (b1.board y1 x1).mine with
      | true => exact absurd ⟨hm, hs⟩ hnot
      | false => rfl
    rw [(reachable_label h1).revealed_text y1 x1 hv1 hs hm1,
      (reachable_label h2).revealed_text y2 x2 hv2 (hstate ▸ hs) (hmine ▸ hm1), hcount]

/-- C16 as amended, at the `Revealed` cells `(2,0)` and `(2,1)` of the 4×4 board
`exRevealed4`, both no mines with count 2. -/
theorem text_function_except_revealed_mines_witness :
    Reachable 4 exRevealed4
    ∧ isValidSpace exRevealed4 2 0 = true ∧ isValidSpace exRevealed4 2 1 = true
    ∧ (exRevealed4.board 0 2).mine = (exRevealed4.board 1 2).mine
    ∧ (exRevealed4.board 0 2).state = (exRevealed4.board 1 2).state
    ∧ countAdjacentMines exRevealed4 2 0 = countAdjacentMines exRevealed4 2 1
    ∧ ¬ ((exRevealed4.board 0 2).mine = true
        ∧ (exRevealed4.board 0 2).state = State.Revealed)
    ∧ (exRevealed4.board 0 2).text = (exRevealed4.board 1 2).text :=
  ⟨Reachable.reveal exNew4 3 0 exNew4_reachable rfl, rfl, rfl, by decide, by decide,
    by decide, by decide,
    text_function_except_revealed_mines 4 4 exRevealed4 exRevealed4 2 0 2 1
      (Reachable.reveal exNew4 3 0 exNew4_reachable rfl)
      (Reachable.reveal exNew4 3 0 exNew4_reachable rfl) rfl rfl (by decide) (by decide)
      (by decide) (by decide)⟩

/-- C20: on every reachable board, a `Revealed` grid cell that is no mine and has count 0
has all its 8 neighbours on the grid `Revealed`, and the text of every `Revealed` grid
cell that is no mine is the decimal digit of its count, which is at most 8 and is the
number of mines among its 8 neighbours. -/
theorem revealed_cells_closed_and_labelled (N : Nat) (b : Board) (h : Reachable N b) :
    (∀ x y : Int, isValidSpace b x y = true → (b.board y x).state = State.Revealed →
      (b.board y x).mine = false → countAdjacentMines b x y = 0 →
      ∀ u v : Int, adjacent x y u v → isValidSpace b u v = true →
        (b.board v u).state = State.Revealed)
    ∧ (∀ x y : Int, isValidSpace b x y = true → (b.board y x).state = State.Revealed →
        (b.board y x).mine = false →
        countAdjacentMines b x y = adjacentMines8 b x y
        ∧ countAdjacentMines b x y ≤ 8
        ∧ (b.board y x).text = digitText (countAdjacentMines b x y)) := by
  constructor
  · intro x y hv hs _ hz u v hadj hvu
    exact (reachable_inv h).closed x y hv hs hz u v hadj.1 hvu
  · intro x y hv hs hm
    have hle := countAdjacentMines_le_eight b x y hm
    have h0 := countAdjacentMines_nonneg b x y
    refine ⟨?_, hle, ?_⟩
    · rw [countAdjacentMines_split]
      simp [hm]
    · rw [(reachable_label h).revealed_text y x hv hs hm]
      exact countText_digit _ h0 (by omega)

/-- C20 at the reachable 4×4 board `exRevealed4`. -/
theorem revealed_cells_closed_and_labelled_witness :
    Reachable 4 exRevealed4
    ∧ ((∀ x y : Int, isValidSpace exRevealed4 x y = true →
        (exRevealed4.board y x).state = State.Revealed →
        (exRevealed4.board y x).mine = false → countAdjacentMines exRevealed4 x y = 0 →
        ∀ u v : Int, adjacent x y u v → isValidSpace exRevealed4 u v = true →
          (exRevealed4.board v u).state = State.Revealed)
      ∧ (∀ x y : Int, isValidSpace exRevealed4 x y = true →
          (exRevealed4.board y x).state = State.Revealed →
          (exRevealed4.board y x).mine = false →
          countAdjacentMines exRevealed4 x y = adjacentMines8 exRevealed4 x y
          ∧ countAdjacentMines exRevealed4 x y ≤ 8
          ∧ (exRevealed4.board y x).text = digitText (countAdjacentMines exRevealed4 x y))) :=
  ⟨Reachable.reveal exNew4 3 0 exNew4_reachable rfl,
    revealed_cells_closed_and_labelled 4 exRevealed4
      (Reachable.reveal exNew4 3 0 exNew4_reachable rfl)⟩

/-- C13: on every board of a round on a board of size `N` (from the constructed or a
reset board, moves at grid coordinates, none of which returned `Mine`), `winCheck` is
`true` exactly when every grid cell that is no mine is `Revealed` and every grid cell that
is a mine is `Flagged`. -/
theorem winCheck_documented_rule (N : Nat) (b : Board) (h : InRound N b) :
    winCheck b = true
      ↔ ∀ x y : Int, isValidSpace b x y = true →
          (((b.board y x).mine = false → (b.board y x).state = State.Revealed)
            ∧ ((b.board y x).mine = true → (b.board y x).state = State.Flagged)) := by
  have hg := reachable_inv (inRound_reachable h)
  have hr := inRound_inv h
  rw [winCheck_square b (hg.width_eq.trans hg.height_eq.symm)]
  constructor
  · intro hwin
    have hall : ∀ x y : Int, isValidSpace b x y = true → (b.board y x).mine = true →
        (b.board y x).state = State.Flagged := by
      intro x y hv hm
      rcases hwin x y hv with hs | hs
      · exact absurd hs (hr.mines_unrevealed x y hv hm)
      · exact hs
    intro x y hv
    refine ⟨fun hm => ?_, hall x y hv⟩
    rcases hwin x y hv with hs | hs
    · exact hs
    · exact absurd hs
        (flags_on_mines_only b (by rw [hr.mine_count]; exact hr.flagged_le) hall x y hv hm)
  · intro hrule x y hv
    cases hm : (b.board y x).mine with
    | true => exact Or.inr ((hrule x y hv).2 hm)
    | false => exact Or.inl ((hrule x y hv).1 hm)

/-- C13 at the 2×2 board `exCleared2`: both mines flagged, both other cells revealed, no
move returned `Mine`, and `winCheck` is `true`. -/
theorem winCheck_documented_rule_witness :
    InRound 2 exCleared2 ∧ winCheck exCleared2 = true
    ∧ (winCheck exCleared2 = true
      ↔ ∀ x y : Int, isValidSpace exCleared2 x y = true →
          (((exCleared2.board y x).mine = false →
              (exCleared2.board y x).state = State.Revealed)
            ∧ ((exCleared2.board y x).mine = true →
              (exCleared2.board y x).state = State.Flagged))) :=
  ⟨exCleared2_inRound, by decide, winCheck_documented_rule 2 exCleared2 exCleared2_inRound⟩

end Minesweeper
